import Mathlib

/-!
Verification of the pandoras-box transaction pipeline.

This file gives a shallow embedding, in Lean, of the core data structures and
algorithms of the pandoras-box stress-testing tool: the native fund
distributor (`src/distributor/distributor.ts`), the binary-heap library it
relies on (the npm package `heap`, as invoked by the distributor), the EOA
workload runtime (`src/runtime/eoa.ts`), the transaction signer
(`src/runtime/signer.ts`), the statistics collector
(`src/stats/collector.ts`) and the JSON outputter
(`src/outputter/outputter.ts`).

Conventions of the embedding:
* `BigNumber` values (wei amounts, balances, gas quantities) are modelled as
  `Int`: ethers `BigNumber` is arbitrary-precision and signed, and the code
  subtracts freely.
* JavaScript array mutation is modelled by explicit state passing over
  `List`; `arr[i]` is `List.getD i default` (every access performed by the
  source is in bounds, so the default is never observed on the source's own
  executions).
* Derived wallet addresses are abstracted by an address map `Nat → Nat`
  from derivation index to address; key derivation is injective, which the
  theorems take as a hypothesis where it matters.
* RPC calls (`estimateGas`, `getBalance`, `waitForTransaction`, `getBlock`,
  `txpool_status`) are modelled as oracle functions passed in as arguments;
  a call that throws is an oracle returning `none`.
-/

/-! ### The funding-plan entry

Translated from `distributor.ts`:
`class distributeAccount { missingFunds: BigNumber; address: string; mnemonicIndex: number }`.
-/

structure distributeAccount where
  missingFunds : Int
  address : Nat
  mnemonicIndex : Nat
deriving Repr, DecidableEq, Inhabited

/-! ### The `heap` npm package

The distributor creates its priority queue with `new Heap<distributeAccount>()`,
i.e. without a comparator, so the library's `defaultCmp` is used:

    defaultCmp = function(x, y) { if (x < y) return -1; if (x > y) return 1; return 0; }

For two `distributeAccount` objects the JS relational operators coerce both
operands to the string "[object Object]", so both `x < y` and `x > y` are
false and `defaultCmp` returns 0 on every pair.  `jsObjectLt` embeds that
coercion semantics; `defaultCmp` is then a byte-for-byte translation.
-/

def jsObjectLt (_x _y : distributeAccount) : Bool := false

def defaultCmp (x y : distributeAccount) : Int :=
  if jsObjectLt x y then -1 else if jsObjectLt y x then 1 else 0

/-- heap.js `_siftdown` main loop: starting from `pos`, repeatedly move the
parent (`array[(pos - 1) >> 1]`) down while `cmp(newitem, parent) < 0`;
returns the final array and resting position (the write of `newitem`
happens in `heapSiftdown`). -/
def siftdownLoop (cmp : α → α → Int) (newitem : α) (startpos pos : Nat)
    (a : List α) : List α × Nat :=
  if _h : startpos < pos then
    if cmp newitem (a.getD ((pos - 1) / 2) newitem) < 0 then
      siftdownLoop cmp newitem startpos ((pos - 1) / 2)
        (a.set pos (a.getD ((pos - 1) / 2) newitem))
    else (a, pos)
  else (a, pos)
termination_by pos
decreasing_by omega

/-- heap.js `_siftdown(array, startpos, pos)`. -/
def heapSiftdown (cmp : α → α → Int) (a : List α) (startpos pos : Nat) : List α :=
  match a.get? pos with
  | none => a
  | some newitem =>
    let r := siftdownLoop cmp newitem startpos pos a
    r.1.set r.2 newitem

/-- heap.js `push` (`heappush`): append, then sift down from the last slot. -/
def heapPush (cmp : α → α → Int) (a : List α) (x : α) : List α :=
  heapSiftdown cmp (a ++ [x]) 0 a.length

/-- heap.js `_siftup` child selection: `childpos = 2*pos + 1`, replaced by
`rightpos = childpos + 1` when `rightpos < endpos && !(cmp(array[childpos],
array[rightpos]) < 0)` (the nested `if` mirrors the short-circuit `&&`). -/
def siftupChild [Inhabited α] (cmp : α → α → Int) (endpos pos : Nat)
    (a : List α) : Nat :=
  if 2 * pos + 2 < endpos then
    if ¬ cmp (a.getD (2 * pos + 1) default) (a.getD (2 * pos + 2) default) < 0
    then 2 * pos + 2 else 2 * pos + 1
  else 2 * pos + 1

theorem siftupChild_gt_pos [Inhabited α] (cmp : α → α → Int) (endpos pos : Nat)
    (a : List α) : pos < siftupChild cmp endpos pos a := by
  unfold siftupChild
  split
  · split <;> omega
  · omega

/-- heap.js `_siftup` main loop: bubble the hole at `pos` down to a leaf,
always moving up the child selected by `cmp`. -/
def siftupLoop [Inhabited α] (cmp : α → α → Int) (endpos pos : Nat)
    (a : List α) : List α × Nat :=
  if _h : 2 * pos + 1 < endpos then
    siftupLoop cmp endpos (siftupChild cmp endpos pos a)
      (a.set pos (a.getD (siftupChild cmp endpos pos a) default))
  else (a, pos)
termination_by endpos - pos
decreasing_by
  have := siftupChild_gt_pos cmp endpos pos a
  omega

/-- heap.js `_siftup(array, pos)`: run the loop, write `newitem` into the
final hole, then `_siftdown` from there. -/
def heapSiftup [Inhabited α] (cmp : α → α → Int) (a : List α) (pos : Nat) : List α :=
  let endpos := a.length
  let newitem := a.getD pos default
  let r := siftupLoop cmp endpos pos a
  heapSiftdown cmp (r.1.set r.2 newitem) pos r.2

/-- heap.js `pop` (`heappop`): remove the last element; if the array is still
non-empty, the root is returned and the last element is sifted into its
place.  Popping an empty heap returns `none` (JS `undefined`). -/
def heapPop [Inhabited α] (cmp : α → α → Int) (a : List α) : Option α × List α :=
  match a.getLast? with
  | none => (none, [])
  | some lastelt =>
    if 0 < a.dropLast.length then
      (some (a.dropLast.getD 0 default), heapSiftup cmp (a.dropLast.set 0 lastelt) 0)
    else
      (some lastelt, a.dropLast)

theorem siftdownLoop_length (cmp : α → α → Int) (newitem : α) :
    ∀ pos startpos a, ((siftdownLoop cmp newitem startpos pos a).1).length = a.length := by
  intro pos
  induction pos using Nat.strong_induction_on with
  | _ pos ih =>
    intro startpos a
    rw [siftdownLoop]
    split
    · next hs =>
      split
      · next hc =>
        rw [ih ((pos - 1) / 2) (by omega) startpos]
        exact List.length_set a pos _
      · rfl
    · rfl

theorem heapSiftdown_length (cmp : α → α → Int) (a : List α) (startpos pos : Nat) :
    (heapSiftdown cmp a startpos pos).length = a.length := by
  unfold heapSiftdown
  cases h : a.get? pos with
  | none => rfl
  | some newitem => simp [siftdownLoop_length]

theorem siftupLoop_length [Inhabited α] (cmp : α → α → Int) (endpos : Nat) :
    ∀ n pos a, endpos - pos ≤ n → ((siftupLoop cmp endpos pos a).1).length = a.length := by
  intro n
  induction n with
  | zero =>
    intro pos a hn
    rw [siftupLoop]
    split
    · omega
    · rfl
  | succ n ih =>
    intro pos a hn
    rw [siftupLoop]
    split
    · next hs =>
      have hgt := siftupChild_gt_pos cmp endpos pos a
      rw [ih (siftupChild cmp endpos pos a)
        (a.set pos (a.getD (siftupChild cmp endpos pos a) default)) (by omega)]
      exact List.length_set a pos _
    · rfl

theorem heapSiftup_length [Inhabited α] (cmp : α → α → Int) (a : List α) (pos : Nat) :
    (heapSiftup cmp a pos).length = a.length := by
  unfold heapSiftup
  rw [heapSiftdown_length, List.length_set,
    siftupLoop_length cmp a.length (a.length - pos) pos a (by omega)]

theorem heapPop_length [Inhabited α] (cmp : α → α → Int) (a : List α) (h : a ≠ []) :
    ((heapPop cmp a).2).length + 1 = a.length := by
  have hlen : 0 < a.length := List.length_pos.mpr h
  unfold heapPop
  split
  · next hl => exact absurd (List.getLast?_eq_none_iff.mp hl) h
  · next lastelt hl =>
    split
    · next hp =>
      simp only [heapSiftup_length, List.length_set, List.length_dropLast]
      omega
    · next hp =>
      simp only [List.length_dropLast] at hp ⊢
      omega

/-! ### Behaviour of the heap operations under the default comparator

`defaultCmp` never returns a negative value on `distributeAccount` objects,
which collapses `_siftdown` to the identity.  These lemmas hold for any
comparator with that property.
-/

theorem defaultCmp_nonneg (x y : distributeAccount) : ¬ defaultCmp x y < 0 := by
  simp [defaultCmp, jsObjectLt]

theorem mem_of_getLast?_eq {l : List α} {x : α} (h : l.getLast? = some x) : x ∈ l := by
  obtain ⟨hne, rfl⟩ := List.mem_getLast?_eq_getLast (Option.mem_def.mpr h)
  exact List.getLast_mem hne

theorem set_get?_self : ∀ (l : List α) (n : Nat) (x : α), l.get? n = some x → l.set n x = l := by
  intro l
  induction l with
  | nil => intro n x h; simp at h
  | cons a t ih =>
    intro n x h
    cases n with
    | zero => simp at h; subst h; simp
    | succ n =>
      simp at h
      simp [List.set, ih n x (by simpa using h)]

theorem siftdownLoop_of_nonneg (cmp : α → α → Int) (newitem : α)
    (hc : ∀ u v, ¬ cmp u v < 0) (startpos pos : Nat) (a : List α) :
    siftdownLoop cmp newitem startpos pos a = (a, pos) := by
  rw [siftdownLoop]
  split
  · rw [if_neg (hc _ _)]
  · rfl

theorem heapSiftdown_of_nonneg (cmp : α → α → Int)
    (hc : ∀ u v, ¬ cmp u v < 0) (a : List α) (startpos pos : Nat) :
    heapSiftdown cmp a startpos pos = a := by
  unfold heapSiftdown
  cases h : a.get? pos with
  | none => rfl
  | some newitem =>
    dsimp only
    rw [siftdownLoop_of_nonneg cmp newitem hc]
    exact set_get?_self a pos newitem h

theorem heapPush_of_nonneg (cmp : α → α → Int)
    (hc : ∀ u v, ¬ cmp u v < 0) (a : List α) (x : α) :
    heapPush cmp a x = a ++ [x] := by
  unfold heapPush
  exact heapSiftdown_of_nonneg cmp hc (a ++ [x]) 0 a.length

theorem siftupChild_lt_endpos [Inhabited α] (cmp : α → α → Int) (endpos pos : Nat)
    (a : List α) (h : 2 * pos + 1 < endpos) : siftupChild cmp endpos pos a < endpos := by
  unfold siftupChild
  split
  · split <;> omega
  · omega

theorem getD_mem {l : List α} {i : Nat} (d : α) (h : i < l.length) : l.getD i d ∈ l := by
  rw [List.getD_eq_getElem l d h]
  exact List.getElem_mem h

theorem siftupLoop_subset [Inhabited α] (cmp : α → α → Int) (endpos : Nat) :
    ∀ n pos a, endpos - pos ≤ n → endpos ≤ a.length →
      ∀ y ∈ (siftupLoop cmp endpos pos a).1, y ∈ a := by
  intro n
  induction n with
  | zero =>
    intro pos a hn _ y hy
    rw [siftupLoop] at hy
    split at hy
    · omega
    · exact hy
  | succ n ih =>
    intro pos a hn hlen y hy
    rw [siftupLoop] at hy
    split at hy
    · next hs =>
      have hgt := siftupChild_gt_pos cmp endpos pos a
      have hlt := siftupChild_lt_endpos cmp endpos pos a hs
      have hsub := ih (siftupChild cmp endpos pos a)
        (a.set pos (a.getD (siftupChild cmp endpos pos a) default))
        (by omega) (by simpa using hlen) y hy
      rcases List.mem_or_eq_of_mem_set hsub with h | h
      · exact h
      · subst h
        exact getD_mem default (by omega)
    · exact hy

theorem heapSiftup_subset [Inhabited α] (cmp : α → α → Int)
    (hc : ∀ u v, ¬ cmp u v < 0) (a : List α) (h0 : 0 < a.length) :
    ∀ y ∈ heapSiftup cmp a 0, y ∈ a := by
  intro y hy
  unfold heapSiftup at hy
  rw [heapSiftdown_of_nonneg cmp hc] at hy
  rcases List.mem_or_eq_of_mem_set hy with h | h
  · exact siftupLoop_subset cmp a.length a.length 0 a (by omega) (le_refl _) y h
  · subst h
    exact getD_mem default h0

theorem heapPop_subset [Inhabited α] (cmp : α → α → Int)
    (hc : ∀ u v, ¬ cmp u v < 0) (a : List α) :
    (∀ x, (heapPop cmp a).1 = some x → x ∈ a) ∧ (∀ y ∈ (heapPop cmp a).2, y ∈ a) := by
  unfold heapPop
  split
  · constructor
    · intro x hx; simp at hx
    · intro y hy; simp at hy
  · next lastelt hl =>
    have hlast : lastelt ∈ a := mem_of_getLast?_eq hl
    split
    · next hp =>
      constructor
      · intro x hx
        simp only [Option.some.injEq] at hx
        subst hx
        exact List.dropLast_subset a (getD_mem default hp)
      · intro y hy
        have := heapSiftup_subset cmp hc (a.dropLast.set 0 lastelt)
          (by simpa using hp) y hy
        rcases List.mem_or_eq_of_mem_set this with h | h
        · exact List.dropLast_subset a h
        · subst h; exact hlast
    · constructor
      · intro x hx
        simp only [Option.some.injEq] at hx
        subst hx; exact hlast
      · intro y hy
        exact List.dropLast_subset a hy

/-! ### The native fund distributor

Translated from `src/distributor/distributor.ts` (the current variant: the
one whose `calculateRuntimeCosts` works from the runtime's gas price and
whose greedy loop checks `initialSet.size() > 0`).  The `Distributor` object
state that the methods touch is `totalTx` and `requestedSubAccounts`; the
RPC surface (`estimateGas`, `getBalance`) and the wallet derivation
(`deriveAddress`) are oracle parameters.
-/

structure DistributorConfig where
  totalTx : Nat
  requestedSubAccounts : Nat
deriving Repr, DecidableEq

/-- Translated from `distributor.ts` `class runtimeCosts`. -/
structure runtimeCosts where
  accDistributionCost : Int
  subAccount : Int
deriving Repr, DecidableEq

/-- `Distributor.calculateRuntimeCosts`:
`baseTxCost = baseGasPrice.mul(baseTxEstimate).add(inherentValue)`;
`subAccountCost = BigNumber.from(this.totalTx).mul(baseTxCost)`;
`singleDistributionCost = estimateGas(transfer of subAccountCost from root to sub-account 1)`. -/
def Distributor.calculateRuntimeCosts (d : DistributorConfig)
    (inherentValue baseTxEstimate baseGasPrice : Int)
    (estimateGas : Int → Int) : runtimeCosts :=
  let baseTxCost := baseGasPrice * baseTxEstimate + inherentValue
  let subAccountCost := (d.totalTx : Int) * baseTxCost
  { accDistributionCost := estimateGas subAccountCost
    subAccount := subAccountCost }

/-- The loop body of `Distributor.findAccountsForDistribution`: for
`i = 1 .. requestedSubAccounts`, fetch the balance of the derived wallet;
if `balance.lt(singleRunCost)`, push
`new distributeAccount(singleRunCost.sub(balance), address, i)` onto the
heap, otherwise append `i` to `readyMnemonicIndexes`. -/
def findLoop (deriveAddress : Nat → Nat) (getBalance : Nat → Int)
    (singleRunCost : Int) (K : Nat) (i : Nat)
    (shortAddresses : List distributeAccount) (ready : List Nat) :
    List distributeAccount × List Nat :=
  if i ≤ K then
    if getBalance i < singleRunCost then
      findLoop deriveAddress getBalance singleRunCost K (i + 1)
        (heapPush defaultCmp shortAddresses
          ⟨singleRunCost - getBalance i, deriveAddress i, i⟩) ready
    else
      findLoop deriveAddress getBalance singleRunCost K (i + 1)
        shortAddresses (ready ++ [i])
  else (shortAddresses, ready)
termination_by K + 1 - i

/-- `Distributor.findAccountsForDistribution(singleRunCost)`: returns the
heap of short accounts and the updated `readyMnemonicIndexes`. -/
def Distributor.findAccountsForDistribution (d : DistributorConfig)
    (deriveAddress : Nat → Nat) (getBalance : Nat → Int)
    (singleRunCost : Int) (ready : List Nat) :
    List distributeAccount × List Nat :=
  findLoop deriveAddress getBalance singleRunCost d.requestedSubAccounts 1 [] ready

/-- The `while` loop of `Distributor.getFundableAccounts`:
`while (distributorBalance.gt(costs.accDistributionCost) && initialSet.size() > 0)`
pop an account, deduct its `missingFunds` from the balance and append it to
`accountsToFund`.  Returns `(accountsToFund, final balance, final heap)`.
The `(none, _)` match arm is unreachable: the guard has `0 < heap.length`
and `heapPop` returns an element on every non-empty list. -/
def getFundableLoop (accDistributionCost : Int) (heap : List distributeAccount)
    (distributorBalance : Int) (accountsToFund : List distributeAccount) :
    List distributeAccount × Int × List distributeAccount :=
  if accDistributionCost < distributorBalance ∧ 0 < heap.length then
    match hp : heapPop defaultCmp heap with
    | (some acc, heap') =>
      getFundableLoop accDistributionCost heap'
        (distributorBalance - acc.missingFunds) (accountsToFund ++ [acc])
    | (none, heap') => (accountsToFund, distributorBalance, heap')
  else (accountsToFund, distributorBalance, heap)
termination_by heap.length
decreasing_by
  have h1 : heap ≠ [] := by
    intro he
    subst he
    simp_all
  have h2 := heapPop_length defaultCmp heap h1
  rw [hp] at h2
  simp at h2
  omega

/-- The distributor error raised when no account can be funded
(`DistributorErrors.errNotEnoughFunds`). -/
inductive DistributorError where
  | errNotEnoughFunds
deriving Repr, DecidableEq

/-- `Distributor.getFundableAccounts(costs, initialSet)`: run the greedy
loop from the root balance and throw `errNotEnoughFunds` when
`accountsToFund.length == 0`. -/
def Distributor.getFundableAccounts (costs : runtimeCosts) (rootBalance : Int)
    (initialSet : List distributeAccount) :
    Except DistributorError (List distributeAccount) :=
  if (getFundableLoop costs.accDistributionCost initialSet rootBalance []).1.length = 0
  then .error .errNotEnoughFunds
  else .ok (getFundableLoop costs.accDistributionCost initialSet rootBalance []).1

/-- A native value transfer submitted by the root wallet via
`ethWallet.sendTransaction` (the `to` and `value` fields of the request;
`to` is spelled `toAddr` because `to` is a Lean keyword). -/
structure NativeTransfer where
  toAddr : Nat
  value : Int
deriving Repr, DecidableEq

/-- `Distributor.fundAccounts(costs, accounts)`: for each account, send a
native transfer `to: acc.address, value: acc.missingFunds` and append
`acc.mnemonicIndex` to `readyMnemonicIndexes`.  Returns the emitted
transfers in order together with the updated ready list. -/
def Distributor.fundAccounts :
    List distributeAccount → List Nat → List NativeTransfer × List Nat
  | [], ready => ([], ready)
  | acc :: rest, ready =>
    let r := Distributor.fundAccounts rest (ready ++ [acc.mnemonicIndex])
    (⟨acc.address, acc.missingFunds⟩ :: r.1, r.2)

/-! ### Characterization lemmas for the distributor -/

theorem fundAccounts_transfers :
    ∀ (accs : List distributeAccount) (ready : List Nat),
      (Distributor.fundAccounts accs ready).1
        = accs.map (fun a => (⟨a.address, a.missingFunds⟩ : NativeTransfer)) := by
  intro accs
  induction accs with
  | nil => intro ready; rfl
  | cons a rest ih =>
    intro ready
    simp [Distributor.fundAccounts, ih]

theorem fundAccounts_ready :
    ∀ (accs : List distributeAccount) (ready : List Nat),
      (Distributor.fundAccounts accs ready).2
        = ready ++ accs.map distributeAccount.mnemonicIndex := by
  intro accs
  induction accs with
  | nil => intro ready; simp [Distributor.fundAccounts]
  | cons a rest ih =>
    intro ready
    simp [Distributor.fundAccounts, ih]

/-- Closed form for `findLoop`: the heap receives, in derivation-index order,
one entry per short account `j` with `missingFunds = singleRunCost - balance j`,
and the ready list receives the remaining indexes. -/
theorem findLoop_eq (deriveAddress : Nat → Nat) (getBalance : Nat → Int)
    (singleRunCost : Int) (K : Nat) :
    ∀ n i heap ready, K + 1 - i = n →
      findLoop deriveAddress getBalance singleRunCost K i heap ready
        = (heap ++ ((List.range' i n).filter
              (fun j => decide (getBalance j < singleRunCost))).map
              (fun j => ⟨singleRunCost - getBalance j, deriveAddress j, j⟩),
           ready ++ (List.range' i n).filter
              (fun j => decide (¬ getBalance j < singleRunCost))) := by
  intro n
  induction n with
  | zero =>
    intro i heap ready hn
    rw [findLoop]
    rw [if_neg (by omega)]
    simp
  | succ n ih =>
    intro i heap ready hn
    rw [findLoop]
    rw [if_pos (by omega)]
    rw [List.range'_succ]
    by_cases hb : getBalance i < singleRunCost
    · rw [if_pos hb]
      rw [ih (i + 1) _ _ (by omega)]
      rw [heapPush_of_nonneg defaultCmp (fun u v => defaultCmp_nonneg u v)]
      simp [hb]
    · rw [if_neg hb]
      rw [ih (i + 1) _ _ (by omega)]
      simp [hb, List.filter_cons, not_lt.1 hb]

theorem heapPop_fst_isSome [Inhabited α] (cmp : α → α → Int) (a : List α)
    (h : a ≠ []) : ((heapPop cmp a).1).isSome := by
  unfold heapPop
  split
  · next hl => exact absurd (List.getLast?_eq_none_iff.mp hl) h
  · next lastelt hl =>
    split <;> rfl

/-- Every account the greedy loop selects comes from the accumulator or the
initial heap. -/
theorem getFundableLoop_subset (D : Int) :
    ∀ n (heap : List distributeAccount), heap.length ≤ n →
      ∀ bal acc x, x ∈ (getFundableLoop D heap bal acc).1 → x ∈ acc ∨ x ∈ heap := by
  intro n
  induction n with
  | zero =>
    intro heap hn bal acc x hx
    rw [getFundableLoop] at hx
    rw [if_neg (by omega)] at hx
    exact Or.inl hx
  | succ n ih =>
    intro heap hn bal acc x hx
    rw [getFundableLoop] at hx
    split at hx
    · next hg =>
      have hne : heap ≠ [] := by
        intro he; subst he; simp at hg
      have hlen := heapPop_length defaultCmp heap hne
      have hsub := heapPop_subset defaultCmp (fun u v => defaultCmp_nonneg u v) heap
      split at hx
      · next acc' heap' hp =>
        have hlen' : heap'.length ≤ n := by
          rw [hp] at hlen; simp at hlen; omega
        rcases ih heap' hlen' _ _ x hx with hin | hin
        · rcases List.mem_append.mp hin with h1 | h1
          · exact Or.inl h1
          · right
            have := hsub.1 acc' (by rw [hp])
            simp at h1
            rwa [h1]
        · right
          exact hsub.2 x (by rw [hp]; exact hin)
      · next heap' hp =>
        have := heapPop_fst_isSome defaultCmp heap hne
        rw [hp] at this
        simp at this
    · exact Or.inl hx

/-- Total shortfall of a list of funding-plan entries. -/
def sumMissing (l : List distributeAccount) : Int :=
  (l.map distributeAccount.missingFunds).sum

theorem sumMissing_nil : sumMissing [] = 0 := rfl

theorem sumMissing_cons (a : distributeAccount) (l : List distributeAccount) :
    sumMissing (a :: l) = a.missingFunds + sumMissing l := by
  simp [sumMissing]

theorem getFundableLoop_eq_true (D : Int) (heap : List distributeAccount)
    (bal : Int) (acc : List distributeAccount)
    (hg : D < bal ∧ 0 < heap.length) (a : distributeAccount)
    (heap' : List distributeAccount)
    (hp : heapPop defaultCmp heap = (some a, heap')) :
    getFundableLoop D heap bal acc
      = getFundableLoop D heap' (bal - a.missingFunds) (acc ++ [a]) := by
  rw [getFundableLoop, if_pos hg]
  split
  · next a' heap'' hp' =>
    rw [hp'] at hp
    injection hp with h1 h2
    obtain rfl : a' = a := Option.some.inj h1
    subst h2
    rfl
  · next heap'' hp' =>
    rw [hp'] at hp
    simp at hp

theorem getFundableLoop_eq_false (D : Int) (heap : List distributeAccount)
    (bal : Int) (acc : List distributeAccount)
    (hg : ¬ (D < bal ∧ 0 < heap.length)) :
    getFundableLoop D heap bal acc = (acc, bal, heap) := by
  rw [getFundableLoop, if_neg hg]

/-- The accumulator of the greedy loop is a pure prefix: running with
accumulator `acc` appends the run with an empty accumulator. -/
theorem getFundableLoop_acc (D : Int) :
    ∀ n (heap : List distributeAccount), heap.length ≤ n → ∀ bal acc,
      getFundableLoop D heap bal acc
        = (acc ++ (getFundableLoop D heap bal []).1,
           (getFundableLoop D heap bal []).2) := by
  intro n
  induction n with
  | zero =>
    intro heap hn bal acc
    have hg : ¬ (D < bal ∧ 0 < heap.length) := by
      intro h; omega
    rw [getFundableLoop_eq_false D heap bal acc hg,
      getFundableLoop_eq_false D heap bal [] hg]
    simp
  | succ n ih =>
    intro heap hn bal acc
    by_cases hg : D < bal ∧ 0 < heap.length
    · have hne : heap ≠ [] := by
        intro he; subst he; simp at hg
      have hs := heapPop_fst_isSome defaultCmp heap hne
      rcases hpp : heapPop defaultCmp heap with ⟨o, heap'⟩
      cases o with
      | none => rw [hpp] at hs; simp at hs
      | some a =>
        have hlen := heapPop_length defaultCmp heap hne
        rw [hpp] at hlen
        simp at hlen
        rw [getFundableLoop_eq_true D heap bal acc hg a heap' hpp,
          getFundableLoop_eq_true D heap bal [] hg a heap' hpp]
        rw [ih heap' (by omega) (bal - a.missingFunds) (acc ++ [a]),
          ih heap' (by omega) (bal - a.missingFunds) ([] ++ [a])]
        simp
    · rw [getFundableLoop_eq_false D heap bal acc hg,
        getFundableLoop_eq_false D heap bal [] hg]
      simp

/-- Invariants of the greedy selection loop: the final balance is the initial
balance minus the selected shortfalls; the loop stops only with an empty heap
or an unaffordable next distribution; selections plus leftovers account for
the whole heap; and every pop happened while the running balance still
exceeded the distribution cost. -/
theorem getFundableLoop_spec (D : Int) :
    ∀ n (heap : List distributeAccount), heap.length ≤ n → ∀ bal : Int,
      (getFundableLoop D heap bal []).2.1
          = bal - sumMissing (getFundableLoop D heap bal []).1
      ∧ ((getFundableLoop D heap bal []).2.2 = []
          ∨ (getFundableLoop D heap bal []).2.1 ≤ D)
      ∧ (getFundableLoop D heap bal []).1.length
          + (getFundableLoop D heap bal []).2.2.length = heap.length
      ∧ (∀ k, k < (getFundableLoop D heap bal []).1.length →
          D < bal - sumMissing ((getFundableLoop D heap bal []).1.take k)) := by
  intro n
  induction n with
  | zero =>
    intro heap hn bal
    have hempty : heap = [] := List.length_eq_zero.mp (by omega)
    subst hempty
    have hg : ¬ (D < bal ∧ 0 < ([] : List distributeAccount).length) := by simp
    rw [getFundableLoop_eq_false D [] bal [] hg]
    simp [sumMissing_nil]
  | succ n ih =>
    intro heap hn bal
    by_cases hg : D < bal ∧ 0 < heap.length
    · have hne : heap ≠ [] := by intro he; subst he; simp at hg
      have hs := heapPop_fst_isSome defaultCmp heap hne
      rcases hpp : heapPop defaultCmp heap with ⟨o, heap'⟩
      cases o with
      | none => rw [hpp] at hs; simp at hs
      | some a =>
        have hlen := heapPop_length defaultCmp heap hne
        rw [hpp] at hlen
        simp at hlen
        rw [getFundableLoop_eq_true D heap bal [] hg a heap' hpp]
        rw [getFundableLoop_acc D heap'.length heap' (le_refl _)
          (bal - a.missingFunds) ([] ++ [a])]
        obtain ⟨ih1, ih2, ih3, ih4⟩ := ih heap' (by omega) (bal - a.missingFunds)
        refine ⟨?_, ?_, ?_, ?_⟩
        · simp only [List.nil_append, List.cons_append]
          rw [ih1]
          simp [sumMissing_cons]
          ring
        · exact ih2
        · simp only [List.nil_append, List.cons_append, List.length_cons]
          omega
        · intro k hk
          simp only [List.nil_append, List.cons_append, List.length_cons] at hk ⊢
          cases k with
          | zero => simpa [sumMissing_nil] using hg.1
          | succ k =>
            rw [List.take_succ_cons, sumMissing_cons]
            have := ih4 k (by omega)
            omega
    · rw [getFundableLoop_eq_false D heap bal [] hg]
      refine ⟨by simp [sumMissing_nil], ?_, by simp, by simp⟩
      rcases not_and_or.mp hg with h | h
      · exact Or.inr (by simp; omega)
      · exact Or.inl (by simp; exact List.length_eq_zero.mp (by omega))

/-- When the heap starts non-empty, the greedy loop selects nothing exactly
when the root cannot afford even one distribution up front. -/
theorem getFundableLoop_nil_iff (D : Int) (heap : List distributeAccount)
    (bal : Int) (hne : heap ≠ []) :
    (getFundableLoop D heap bal []).1 = [] ↔ ¬ D < bal := by
  constructor
  · intro h hlt
    have hg : D < bal ∧ 0 < heap.length := ⟨hlt, List.length_pos.mpr hne⟩
    have hs := heapPop_fst_isSome defaultCmp heap hne
    rcases hpp : heapPop defaultCmp heap with ⟨o, heap'⟩
    cases o with
    | none => rw [hpp] at hs; simp at hs
    | some a =>
      rw [getFundableLoop_eq_true D heap bal [] hg a heap' hpp] at h
      rw [getFundableLoop_acc D heap'.length heap' (le_refl _)
        (bal - a.missingFunds) ([] ++ [a])] at h
      simp at h
  · intro h
    rw [getFundableLoop_eq_false D heap bal [] (by intro hc; exact h hc.1)]

/-- Among accounts with pairwise-distinct addresses, the transfer list of
`fundAccounts` contains exactly one transfer to each account's address, and
its value is that account's `missingFunds`. -/
theorem filter_transfers_unique :
    ∀ (l : List distributeAccount), (l.map distributeAccount.address).Nodup →
      ∀ a ∈ l,
        (l.map (fun b => (⟨b.address, b.missingFunds⟩ : NativeTransfer))).filter
            (fun t => t.toAddr == a.address) = [⟨a.address, a.missingFunds⟩] := by
  intro l
  induction l with
  | nil => intro _ a ha; simp at ha
  | cons b rest ih =>
    intro hnd a ha
    simp only [List.map_cons, List.nodup_cons] at hnd
    obtain ⟨hbn, hrest⟩ := hnd
    rw [List.map_cons, List.filter_cons]
    by_cases hba : b.address = a.address
    · have hab : a = b := by
        rcases List.mem_cons.mp ha with h | har
        · exact h
        · exfalso
          apply hbn
          rw [hba]
          exact List.mem_map_of_mem distributeAccount.address har
      subst hab
      rw [hba]
      simp only [beq_self_eq_true, if_pos]
      rw [hba] at hbn ⊢
      have hnil : rest.filter
          (fun c => c.address == a.address) = [] := by
        rw [List.filter_eq_nil_iff]
        intro c hc hc'
        exact hbn (by
          have : c.address = a.address := by simpa using hc'
          rw [← this]
          exact List.mem_map_of_mem distributeAccount.address hc)
      have : (rest.map (fun b => (⟨b.address, b.missingFunds⟩ : NativeTransfer))).filter
          (fun t => t.toAddr == a.address) = [] := by
        rw [List.filter_eq_nil_iff]
        intro t ht ht'
        obtain ⟨c, hc, rfl⟩ := List.mem_map.mp ht
        exact hbn (by
          have : c.address = a.address := by simpa using ht'
          rw [← this]
          exact List.mem_map_of_mem distributeAccount.address hc)
      rw [this]
    · have har : a ∈ rest := by
        rcases List.mem_cons.mp ha with h | h
        · exact absurd (h ▸ rfl) hba
        · exact h
      have : ((⟨b.address, b.missingFunds⟩ : NativeTransfer).toAddr == a.address) = false := by
        simpa using hba
      rw [this, if_neg Bool.false_ne_true]
      exact ih hrest a har

/-- Claim C1: for every run configuration with transaction count `totalTx`,
requested sub-account count `requestedSubAccounts`, estimated gas limit `G`,
gas price `P` and per-transaction value `V`, `Distributor.calculateRuntimeCosts`
computes the per-sub-account requirement as
`subAccount = totalTx * (P * G + V)`, using the full transaction count and
independently of the requested sub-account count. -/
theorem calculateRuntimeCosts_uses_full_totalTx
    (d : DistributorConfig) (V G P : Int) (oracle : Int → Int) :
    (Distributor.calculateRuntimeCosts d V G P oracle).subAccount
        = (d.totalTx : Int) * (P * G + V)
    ∧ ∀ K : Nat,
        (Distributor.calculateRuntimeCosts ⟨d.totalTx, K⟩ V G P oracle).subAccount
          = (Distributor.calculateRuntimeCosts d V G P oracle).subAccount :=
  ⟨rfl, fun _ => rfl⟩

/-- Claim C2: every account selected as fundable by the native distributor
receives exactly one native transfer from `fundAccounts`, whose value is that
account's shortfall, i.e. its `missingFunds`, which
`findAccountsForDistribution` computed as the required balance minus the
account's current balance (pushed only when the balance is short). -/
theorem fundAccounts_one_transfer_per_fundable
    (d : DistributorConfig) (deriveAddress : Nat → Nat) (getBalance : Nat → Int)
    (R : Int) (ready0 : List Nat) (costs : runtimeCosts) (rootBalance : Int)
    (funded : List distributeAccount) (readyIn : List Nat)
    (hsel : Distributor.getFundableAccounts costs rootBalance
        (Distributor.findAccountsForDistribution d deriveAddress getBalance R ready0).1
      = .ok funded)
    (hnd : (funded.map distributeAccount.address).Nodup)
    (a : distributeAccount) (ha : a ∈ funded) :
    (Distributor.fundAccounts funded readyIn).1.filter
        (fun t => t.toAddr == a.address) = [⟨a.address, a.missingFunds⟩]
    ∧ a.missingFunds = R - getBalance a.mnemonicIndex
    ∧ getBalance a.mnemonicIndex < R := by
  have hfil : (Distributor.fundAccounts funded readyIn).1.filter
      (fun t => t.toAddr == a.address) = [⟨a.address, a.missingFunds⟩] := by
    rw [fundAccounts_transfers]
    exact filter_transfers_unique funded hnd a ha
  refine ⟨hfil, ?_⟩
  unfold Distributor.getFundableAccounts at hsel
  split at hsel
  · exact absurd hsel (by simp)
  · next hlen =>
    have hfunded : funded
        = (getFundableLoop costs.accDistributionCost
            (Distributor.findAccountsForDistribution d deriveAddress getBalance R ready0).1
            rootBalance []).1 := by
      have := Except.ok.inj hsel
      exact this.symm
    have hmem : a ∈ (Distributor.findAccountsForDistribution d deriveAddress
        getBalance R ready0).1 := by
      rw [hfunded] at ha
      rcases getFundableLoop_subset costs.accDistributionCost
        (Distributor.findAccountsForDistribution d deriveAddress getBalance R ready0).1.length
        _ (le_refl _) rootBalance [] a ha with h | h
      · simp at h
      · exact h
    unfold Distributor.findAccountsForDistribution at hmem
    rw [findLoop_eq deriveAddress getBalance R d.requestedSubAccounts
      (d.requestedSubAccounts + 1 - 1) 1 [] ready0 rfl] at hmem
    simp only [List.nil_append, List.mem_map, List.mem_filter] at hmem
    obtain ⟨j, ⟨_, hj⟩, rfl⟩ := hmem
    have hjlt : getBalance j < R := by simpa using hj
    exact ⟨rfl, hjlt⟩

/-- Witness for C2 at a concrete input: one sub-account with balance 0 and a
requirement of 5 wei; the distributor selects it and funds exactly its
5-wei shortfall. -/
theorem fundAccounts_one_transfer_per_fundable_witness :
    Distributor.getFundableAccounts ⟨1, 0⟩ 10
        (Distributor.findAccountsForDistribution ⟨2, 1⟩ (fun i => 100 + i)
          (fun _ => 0) 5 []).1
      = .ok [⟨5, 101, 1⟩]
    ∧ (Distributor.fundAccounts [⟨5, 101, 1⟩] []).1.filter
          (fun t => t.toAddr == 101) = [⟨101, 5⟩]
    ∧ (5 : Int) = 5 - 0 ∧ (0 : Int) < 5 := by
  have hsel : Distributor.getFundableAccounts ⟨1, 0⟩ 10
      (Distributor.findAccountsForDistribution ⟨2, 1⟩ (fun i => 100 + i)
        (fun _ => 0) 5 []).1 = .ok [⟨5, 101, 1⟩] := by
    rw [Distributor.findAccountsForDistribution,
      findLoop_eq (fun i => 100 + i) (fun _ => 0) 5 1 1 1 [] [] rfl]
    simp [Distributor.getFundableAccounts,
      getFundableLoop_eq_true 1 [⟨5, 101, 1⟩] 10 [] (by simp) ⟨5, 101, 1⟩ []
        (by simp [heapPop]),
      getFundableLoop_eq_false 1 [] 5 [⟨5, 101, 1⟩] (by simp),
      List.range']
  have := fundAccounts_one_transfer_per_fundable ⟨2, 1⟩ (fun i => 100 + i)
    (fun _ => 0) 5 [] ⟨1, 0⟩ 10 [⟨5, 101, 1⟩] [] hsel (by simp)
    ⟨5, 101, 1⟩ (by simp)
  exact ⟨hsel, this.1, this.2⟩

/-- Claim C3: with a non-empty shortfall heap, the greedy selection of
`getFundableAccounts` pops an entry only while the running root balance
exceeds the distribution cost `D`; it stops exactly when the heap is empty
or one more `D` is unaffordable (so it never pops from an empty heap:
selections and leftovers partition the heap); and it raises
`errNotEnoughFunds` exactly when nothing was selected, which happens
exactly when the root balance does not exceed `D` up front. -/
theorem getFundableAccounts_greedy_selection (costs : runtimeCosts)
    (rootBalance : Int) (heap : List distributeAccount) (hne : heap ≠ []) :
    (∀ k, k < (getFundableLoop costs.accDistributionCost heap rootBalance []).1.length →
        costs.accDistributionCost < rootBalance
          - sumMissing ((getFundableLoop costs.accDistributionCost heap rootBalance []).1.take k))
    ∧ ((getFundableLoop costs.accDistributionCost heap rootBalance []).2.2 = []
        ∨ (getFundableLoop costs.accDistributionCost heap rootBalance []).2.1
            ≤ costs.accDistributionCost)
    ∧ (getFundableLoop costs.accDistributionCost heap rootBalance []).1.length
        + (getFundableLoop costs.accDistributionCost heap rootBalance []).2.2.length
        = heap.length
    ∧ (Distributor.getFundableAccounts costs rootBalance heap
          = .error .errNotEnoughFunds
        ↔ (getFundableLoop costs.accDistributionCost heap rootBalance []).1 = [])
    ∧ ((getFundableLoop costs.accDistributionCost heap rootBalance []).1 = []
        ↔ ¬ costs.accDistributionCost < rootBalance) := by
  obtain ⟨h1, h2, h3, h4⟩ := getFundableLoop_spec costs.accDistributionCost
    heap.length heap (le_refl _) rootBalance
  refine ⟨h4, h2, h3, ?_, getFundableLoop_nil_iff _ heap rootBalance hne⟩
  unfold Distributor.getFundableAccounts
  constructor
  · intro h
    split at h
    · next hl => exact List.length_eq_zero.mp hl
    · exact absurd h (by simp)
  · intro h
    rw [if_pos (by simp [h])]

/-- Witness for C3 at a concrete input: a single 3-wei shortfall against a
10-wei root balance and distribution cost 1. -/
theorem getFundableAccounts_greedy_selection_witness :
    ([(⟨3, 5, 1⟩ : distributeAccount)] ≠ [])
    ∧ (Distributor.getFundableAccounts ⟨1, 0⟩ 10 [⟨3, 5, 1⟩]
          = .error .errNotEnoughFunds
        ↔ (getFundableLoop 1 [⟨3, 5, 1⟩] 10 []).1 = []) :=
  ⟨by simp,
   (getFundableAccounts_greedy_selection ⟨1, 0⟩ 10 [⟨3, 5, 1⟩] (by simp)).2.2.2.1⟩

/-- Claim C5 (refuted by the code, which contradicts its own use of a
priority-queue library): both distributors create the shortfall queue as
`new Heap<distributeAccount>()` with no comparator, so heap.js falls back to
`defaultCmp`, which returns 0 on every pair of objects; pops are therefore
not ordered by `missingFunds`.  At the failing input - pushing a 5-wei
shortfall and then a 1-wei shortfall - the first pop returns the 5-wei
entry even though the 1-wei entry is still in the heap. -/
theorem heapPop_not_minimum_failing_input :
    (heapPop defaultCmp (heapPush defaultCmp
        (heapPush defaultCmp [] ⟨5, 10, 1⟩) ⟨1, 20, 2⟩)).1 = some ⟨5, 10, 1⟩
    ∧ (heapPop defaultCmp (heapPush defaultCmp
        (heapPush defaultCmp [] ⟨5, 10, 1⟩) ⟨1, 20, 2⟩)).2 = [⟨1, 20, 2⟩]
    ∧ ¬ (5 : Int) ≤ 1 := by
  have hnn : ∀ u v : distributeAccount, ¬ defaultCmp u v < 0 :=
    fun u v => defaultCmp_nonneg u v
  have h1 : heapPush defaultCmp ([] : List distributeAccount) ⟨5, 10, 1⟩
      = [⟨5, 10, 1⟩] := heapPush_of_nonneg defaultCmp hnn [] ⟨5, 10, 1⟩
  have h2 : heapPush defaultCmp [(⟨5, 10, 1⟩ : distributeAccount)] ⟨1, 20, 2⟩
      = [⟨5, 10, 1⟩, ⟨1, 20, 2⟩] :=
    heapPush_of_nonneg defaultCmp hnn [⟨5, 10, 1⟩] ⟨1, 20, 2⟩
  rw [h1, h2]
  have h3 : heapSiftdown defaultCmp [(⟨1, 20, 2⟩ : distributeAccount)] 0 0
      = [⟨1, 20, 2⟩] := heapSiftdown_of_nonneg defaultCmp hnn _ 0 0
  refine ⟨?_, ?_, by decide⟩
  · simp [heapPop]
  · simp [heapPop, heapSiftup, siftupLoop, h3]

/-! ### The EOA workload runtime

Translated from `src/runtime/eoa.ts` (`EOARuntime.ConstructTransactions`)
and `src/runtime/signer.ts` (`class senderAccount`).  The mutable
`senderAccount` objects are modelled by a `List senderAccount` state;
`sender.incrNonce()` becomes a `List.set` at the sender's position.  The
`to`/`from` fields are spelled `toAddr`/`fromAddr` (Lean keywords).

One deliberate difference: when `accounts` is empty the JS code computes
`numTx / 0 = Infinity` and `numTx % 0 = NaN` and constructs nothing, while
`Nat` division yields `0` and `numTx % 0 = numTx`; every theorem below
therefore assumes `accounts ≠ []` (the engine never calls the runtime with
an empty ready list when there are transactions to build).
-/

structure senderAccount where
  mnemonicIndex : Nat
  nonce : Nat
  address : Nat
deriving Repr, DecidableEq, Inhabited

structure TransactionRequest where
  fromAddr : Nat
  chainId : Nat
  toAddr : Nat
  gasPrice : Int
  gasLimit : Int
  value : Int
  nonce : Nat
deriving Repr, DecidableEq, Inhabited

/-- `sender.incrNonce()`. -/
def bumpNonce (a : senderAccount) : senderAccount :=
  { a with nonce := a.nonce + 1 }

/-- `incrNonce` applied `m` times. -/
def addNonce (a : senderAccount) (m : Nat) : senderAccount :=
  { a with nonce := a.nonce + m }

/-- The inner `for (let j = 0; j < txsPerAccount; j++)` loop of
`ConstructTransactions`: sender is `accounts[i]`, receiver is
`accounts[(i + j) % numAccounts]`; each iteration pushes a transaction with
the sender's current nonce and then increments it. -/
def constructInner (chainID : Nat) (gasPrice gasLimit value : Int)
    (numAccounts i txsPerAccount : Nat) (accounts : List senderAccount)
    (txs : List TransactionRequest) (j : Nat) :
    List senderAccount × List TransactionRequest :=
  if j < txsPerAccount then
    constructInner chainID gasPrice gasLimit value numAccounts i txsPerAccount
      (accounts.set i (bumpNonce (accounts.getD i default)))
      (txs ++ [⟨(accounts.getD i default).address, chainID,
        (accounts.getD ((i + j) % numAccounts) default).address,
        gasPrice, gasLimit, value, (accounts.getD i default).nonce⟩])
      (j + 1)
  else (accounts, txs)
termination_by txsPerAccount - j

/-- The outer `for (let i = 0; i < numAccounts; i++)` loop of
`ConstructTransactions`. -/
def constructOuter (chainID : Nat) (gasPrice gasLimit value : Int)
    (numAccounts txsPerAccount : Nat) (accounts : List senderAccount)
    (txs : List TransactionRequest) (i : Nat) :
    List senderAccount × List TransactionRequest :=
  if i < numAccounts then
    constructOuter chainID gasPrice gasLimit value numAccounts txsPerAccount
      (constructInner chainID gasPrice gasLimit value numAccounts i
        txsPerAccount accounts txs 0).1
      (constructInner chainID gasPrice gasLimit value numAccounts i
        txsPerAccount accounts txs 0).2
      (i + 1)
  else (accounts, txs)
termination_by numAccounts - i

/-- The trailing `for (let i = 0; i < remainingTxs; i++)` loop: sender is
`accounts[accounts.length - 1]`, receiver is `accounts[0]`. -/
def constructRemainder (chainID : Nat) (gasPrice gasLimit value : Int)
    (remainingTxs : Nat) (accounts : List senderAccount)
    (txs : List TransactionRequest) (k : Nat) :
    List senderAccount × List TransactionRequest :=
  if k < remainingTxs then
    constructRemainder chainID gasPrice gasLimit value remainingTxs
      (accounts.set (accounts.length - 1)
        (bumpNonce (accounts.getD (accounts.length - 1) default)))
      (txs ++ [⟨(accounts.getD (accounts.length - 1) default).address, chainID,
        (accounts.getD 0 default).address,
        gasPrice, gasLimit, value,
        (accounts.getD (accounts.length - 1) default).nonce⟩])
      (k + 1)
  else (accounts, txs)
termination_by remainingTxs - k

/-- `EOARuntime.ConstructTransactions(accounts, numTx)`: block distribution
with `txsPerAccount = Math.floor(numTx / numAccounts)` transactions per
account and `numTx % numAccounts` remainder transactions from the last
account to the first.  Returns the transaction list and the final account
states. -/
def EOARuntime.ConstructTransactions (accounts : List senderAccount)
    (numTx : Nat) (chainID : Nat) (gasPrice gasEstimation defaultValue : Int) :
    List TransactionRequest × List senderAccount :=
  let numAccounts := accounts.length
  let txsPerAccount := numTx / numAccounts
  let remainingTxs := numTx % numAccounts
  let r1 := constructOuter chainID gasPrice gasEstimation defaultValue
    numAccounts txsPerAccount accounts [] 0
  let r2 := constructRemainder chainID gasPrice gasEstimation defaultValue
    remainingTxs r1.1 r1.2 0
  (r2.2, r2.1)

/-- Closed form of the transactions the block phase emits (`s`-th account,
`j`-th transaction): a self-transfer when `j = 0`, receiver walking forward
from `s`, nonce increasing from the account's starting nonce. -/
def eoaBlockTx (accounts : List senderAccount) (chainID : Nat)
    (P G V : Int) (s j : Nat) : TransactionRequest :=
  ⟨(accounts.getD s default).address, chainID,
   (accounts.getD ((s + j) % accounts.length) default).address,
   P, G, V, (accounts.getD s default).nonce + j⟩

/-- Closed form of the remainder-phase transactions: from the last account
to the first, nonces continuing after its `txsPerAccount` block sends. -/
def eoaRemTx (accounts : List senderAccount) (chainID : Nat)
    (P G V : Int) (q k : Nat) : TransactionRequest :=
  ⟨(accounts.getD (accounts.length - 1) default).address, chainID,
   (accounts.getD 0 default).address,
   P, G, V, (accounts.getD (accounts.length - 1) default).nonce + q + k⟩

theorem getD_set_self (l : List α) (i : Nat) (x d : α) (h : i < l.length) :
    (l.set i x).getD i d = x := by
  simp [List.getD, List.getElem?_set_self, h]

theorem getD_set_ne (l : List α) (i c : Nat) (x d : α) (h : i ≠ c) :
    (l.set i x).getD c d = l.getD c d := by
  simp [List.getD, List.getElem?_set_ne h]

theorem set_getD_id [Inhabited α] (l : List α) (i : Nat) (h : i < l.length) :
    l.set i (l.getD i default) = l := by
  apply set_get?_self
  rw [List.get?_eq_getElem?, List.getElem?_eq_getElem h,
    List.getD_eq_getElem l default h]

theorem address_getD_set (accounts : List senderAccount) (i c : Nat)
    (x : senderAccount) (hx : x.address = (accounts.getD i default).address)
    (hi : i < accounts.length) :
    ((accounts.set i x).getD c default).address
      = (accounts.getD c default).address := by
  by_cases hc : i = c
  · subst hc
    rw [getD_set_self _ _ _ _ hi, hx]
  · rw [getD_set_ne _ _ _ _ _ hc]

/-- Closed form of the inner loop: starting at iteration `j`, the account at
`i` is bumped `q - j` times and the emitted transactions walk the receiver
ring from offset `j` with consecutive nonces. -/
theorem constructInner_spec (chainID : Nat) (P G V : Int) (K q i : Nat)
    (hiK : i < K) :
    ∀ n j accounts txs, q - j = n → accounts.length = K →
      constructInner chainID P G V K i q accounts txs j
        = (accounts.set i (addNonce (accounts.getD i default) (q - j)),
           txs ++ (List.range (q - j)).map (fun m =>
             (⟨(accounts.getD i default).address, chainID,
               (accounts.getD ((i + (j + m)) % K) default).address,
               P, G, V, (accounts.getD i default).nonce + m⟩ : TransactionRequest))) := by
  intro n
  induction n with
  | zero =>
    intro j accounts txs hn hlen
    have hilen : i < accounts.length := by omega
    rw [constructInner, if_neg (by omega)]
    simp only [hn, List.range_zero, List.map_nil, List.append_nil]
    have h1 : addNonce (accounts.getD i default) 0 = accounts.getD i default := by
      cases accounts.getD i default
      simp [addNonce]
    rw [h1, set_getD_id accounts i hilen]
  | succ n ih =>
    intro j accounts txs hn hlen
    have hilen : i < accounts.length := by omega
    have hj : j < q := by omega
    rw [constructInner, if_pos hj]
    rw [ih (j + 1) _ _ (by omega) (by simpa using hlen)]
    have hAg : (accounts.set i (bumpNonce (accounts.getD i default))).getD i default
        = bumpNonce (accounts.getD i default) :=
      getD_set_self _ _ _ _ hilen
    rw [Prod.mk.injEq]
    constructor
    · rw [hAg, List.set_set]
      congr 1
      cases accounts.getD i default
      simp only [addNonce, bumpNonce]
      congr 1
      omega
    · rw [List.append_assoc]
      congr 1
      have hq2 : q - (j + 1) = n := by omega
      rw [hq2, hn, List.range_succ_eq_map, List.map_cons, List.map_map,
        List.singleton_append]
      congr 1
      apply List.map_congr_left
      intro m hm
      have h1 : ((accounts.set i (bumpNonce (accounts.getD i default))).getD
          i default).address = (accounts.getD i default).address := by
        rw [hAg]; simp [bumpNonce]
      have h2 : ((accounts.set i (bumpNonce (accounts.getD i default))).getD
          ((i + (j + 1 + m)) % K) default).address
          = (accounts.getD ((i + (j + (m + 1))) % K) default).address := by
        rw [show i + (j + 1 + m) = i + (j + (m + 1)) by omega]
        exact address_getD_set accounts i _ _ (by simp [bumpNonce]) hilen
      have h3 : ((accounts.set i (bumpNonce (accounts.getD i default))).getD
          i default).nonce + m = (accounts.getD i default).nonce + (m + 1) := by
        rw [hAg]; simp [bumpNonce]; omega
      simp only [Function.comp, TransactionRequest.mk.injEq]
      exact ⟨h1, trivial, h2, trivial, trivial, trivial, h3⟩

/-- Block-phase transaction with the account count passed explicitly
(used while the outer-loop induction runs; `eoaBlockTx` fixes
`K = accounts.length`). -/
def eoaBlockTxK (K : Nat) (accounts : List senderAccount) (chainID : Nat)
    (P G V : Int) (s j : Nat) : TransactionRequest :=
  ⟨(accounts.getD s default).address, chainID,
   (accounts.getD ((s + j) % K) default).address,
   P, G, V, (accounts.getD s default).nonce + j⟩

theorem eoaBlockTxK_set_ne (K : Nat) (accounts : List senderAccount)
    (chainID : Nat) (P G V : Int) (i : Nat) (x : senderAccount)
    (hx : x.address = (accounts.getD i default).address)
    (hi : i < accounts.length) (s : Nat) (hs : i ≠ s) (j : Nat) :
    eoaBlockTxK K (accounts.set i x) chainID P G V s j
      = eoaBlockTxK K accounts chainID P G V s j := by
  unfold eoaBlockTxK
  rw [getD_set_ne _ _ _ _ _ hs, address_getD_set accounts i _ x hx hi]

/-- Closed form of the outer loop: blocks `i, i+1, …, K-1` are emitted in
order, each account in that range has its nonce advanced by `q`, and the
addresses and the accounts below `i` are untouched. -/
theorem constructOuter_spec (chainID : Nat) (P G V : Int) (K q : Nat) :
    ∀ n i accounts txs, K - i = n → accounts.length = K →
      (constructOuter chainID P G V K q accounts txs i).2
          = txs ++ (List.range' i (K - i)).flatMap
              (fun s => (List.range q).map (eoaBlockTxK K accounts chainID P G V s))
      ∧ (constructOuter chainID P G V K q accounts txs i).1.length = K
      ∧ ∀ c, c < K →
          (constructOuter chainID P G V K q accounts txs i).1.getD c default
            = if i ≤ c then addNonce (accounts.getD c default) q
              else accounts.getD c default := by
  intro n
  induction n with
  | zero =>
    intro i accounts txs hn hlen
    rw [constructOuter, if_neg (by omega)]
    refine ⟨by simp [hn], hlen, ?_⟩
    intro c hc
    rw [if_neg (by omega)]
  | succ n ih =>
    intro i accounts txs hn hlen
    have hiK : i < K := by omega
    have hilen : i < accounts.length := by omega
    rw [constructOuter, if_pos hiK]
    rw [constructInner_spec chainID P G V K q i hiK q 0 accounts txs
      (by omega) hlen]
    have hlen' : (accounts.set i (addNonce (accounts.getD i default) (q - 0))).length = K := by
      simpa using hlen
    obtain ⟨ihtxs, ihlen, ihgetD⟩ := ih (i + 1)
      (accounts.set i (addNonce (accounts.getD i default) (q - 0))) _ (by omega) hlen'
    refine ⟨?_, ihlen, ?_⟩
    · rw [ihtxs]
      rw [List.append_assoc]
      congr 1
      rw [show K - i = n + 1 by omega, List.range'_succ, List.flatMap_cons,
        show K - (i + 1) = n by omega]
      congr 1
      · apply List.map_congr_left
        intro m _
        unfold eoaBlockTxK
        simp
      · apply List.flatMap_congr
        intro s hs
        have hs' : i + 1 ≤ s := (List.mem_range'_1.mp hs).1
        apply List.map_congr_left
        intro j _
        exact eoaBlockTxK_set_ne K accounts chainID P G V i _
          (by simp [addNonce]) hilen s (by omega) j
    · intro c hc
      rw [ihgetD c hc]
      by_cases hci : c = i
      · subst hci
        rw [if_neg (by omega), if_pos (le_refl _),
          getD_set_self _ _ _ _ hilen]
        simp
      · rw [getD_set_ne _ _ _ _ _ (by omega)]
        by_cases hle : i ≤ c
        · rw [if_pos (by omega), if_pos hle]
        · rw [if_neg (by omega), if_neg hle]

/-- Closed form of the remainder loop: the last account's nonce advances by
`r - k` and each emitted transaction goes from the last account to the
first with consecutive nonces. -/
theorem constructRemainder_spec (chainID : Nat) (P G V : Int) (r : Nat) :
    ∀ n k accounts txs, r - k = n → accounts ≠ [] →
      constructRemainder chainID P G V r accounts txs k
        = (accounts.set (accounts.length - 1)
            (addNonce (accounts.getD (accounts.length - 1) default) (r - k)),
           txs ++ (List.range (r - k)).map (fun m =>
             (⟨(accounts.getD (accounts.length - 1) default).address, chainID,
               (accounts.getD 0 default).address, P, G, V,
               (accounts.getD (accounts.length - 1) default).nonce + m⟩
               : TransactionRequest))) := by
  intro n
  induction n with
  | zero =>
    intro k accounts txs hn hne
    have hlast : accounts.length - 1 < accounts.length := by
      have := List.length_pos.mpr hne
      omega
    rw [constructRemainder, if_neg (by omega)]
    simp only [hn, List.range_zero, List.map_nil, List.append_nil]
    have h1 : addNonce (accounts.getD (accounts.length - 1) default) 0
        = accounts.getD (accounts.length - 1) default := by
      cases accounts.getD (accounts.length - 1) default
      simp [addNonce]
    rw [h1, set_getD_id accounts _ hlast]
  | succ n ih =>
    intro k accounts txs hn hne
    have hpos := List.length_pos.mpr hne
    have hlast : accounts.length - 1 < accounts.length := by omega
    have hk : k < r := by omega
    rw [constructRemainder, if_pos hk]
    have hset : (accounts.set (accounts.length - 1)
        (bumpNonce (accounts.getD (accounts.length - 1) default))) ≠ [] := by
      intro he
      apply hne
      have h0 := congrArg List.length he
      simp at h0
      exact h0
    rw [ih (k + 1) _ _ (by omega) hset]
    have hlenset : (accounts.set (accounts.length - 1)
        (bumpNonce (accounts.getD (accounts.length - 1) default))).length
        = accounts.length := List.length_set ..
    rw [hlenset]
    have hAg : (accounts.set (accounts.length - 1)
        (bumpNonce (accounts.getD (accounts.length - 1) default))).getD
        (accounts.length - 1) default
        = bumpNonce (accounts.getD (accounts.length - 1) default) :=
      getD_set_self _ _ _ _ hlast
    have hA0 : ((accounts.set (accounts.length - 1)
        (bumpNonce (accounts.getD (accounts.length - 1) default))).getD 0 default).address
        = (accounts.getD 0 default).address :=
      address_getD_set accounts _ 0 _ (by simp [bumpNonce]) hlast
    rw [Prod.mk.injEq]
    constructor
    · rw [hAg, List.set_set]
      congr 1
      cases accounts.getD (accounts.length - 1) default
      simp only [addNonce, bumpNonce]
      congr 1
      omega
    · rw [List.append_assoc]
      congr 1
      have hq2 : r - (k + 1) = n := by omega
      rw [hq2, hn, List.range_succ_eq_map, List.map_cons, List.map_map,
        List.singleton_append]
      congr 1
      apply List.map_congr_left
      intro m _
      have h1 : ((accounts.set (accounts.length - 1)
          (bumpNonce (accounts.getD (accounts.length - 1) default))).getD
          (accounts.length - 1) default).address
          = (accounts.getD (accounts.length - 1) default).address := by
        rw [hAg]; simp [bumpNonce]
      have h3 : ((accounts.set (accounts.length - 1)
          (bumpNonce (accounts.getD (accounts.length - 1) default))).getD
          (accounts.length - 1) default).nonce + m
          = (accounts.getD (accounts.length - 1) default).nonce + (m + 1) := by
        rw [hAg]; simp [bumpNonce]; omega
      simp only [Function.comp, TransactionRequest.mk.injEq]
      exact ⟨h1, trivial, hA0, trivial, trivial, trivial, h3⟩

/-- Transaction-list closed form of `ConstructTransactions`: the block phase
in account order followed by the remainder transactions. -/
theorem ConstructTransactions_txs (accounts : List senderAccount)
    (numTx chainID : Nat) (P G V : Int) (hne : accounts ≠ []) :
    (EOARuntime.ConstructTransactions accounts numTx chainID P G V).1
      = (List.range accounts.length).flatMap
          (fun s => (List.range (numTx / accounts.length)).map
            (eoaBlockTx accounts chainID P G V s))
        ++ (List.range (numTx % accounts.length)).map
            (eoaRemTx accounts chainID P G V (numTx / accounts.length)) := by
  have hK : 0 < accounts.length := List.length_pos.mpr hne
  obtain ⟨h1txs, h1len, h1getD⟩ := constructOuter_spec chainID P G V
    accounts.length (numTx / accounts.length) accounts.length 0 accounts []
    (by omega) rfl
  have hr1ne : (constructOuter chainID P G V accounts.length
      (numTx / accounts.length) accounts [] 0).1 ≠ [] := by
    intro he
    apply hne
    apply List.length_eq_zero.mp
    have h0 := congrArg List.length he
    rw [h1len] at h0
    simpa using h0
  have h2 := constructRemainder_spec chainID P G V (numTx % accounts.length)
    (numTx % accounts.length) 0 (constructOuter chainID P G V accounts.length
      (numTx / accounts.length) accounts [] 0).1
    (constructOuter chainID P G V accounts.length
      (numTx / accounts.length) accounts [] 0).2 (by omega) hr1ne
  simp only [EOARuntime.ConstructTransactions]
  rw [h2]
  simp only [Nat.sub_zero]
  rw [h1txs]
  simp only [Nat.sub_zero, List.nil_append]
  congr 1
  · rw [← List.range_eq_range']
    apply List.flatMap_congr
    intro s _
    apply List.map_congr_left
    intro j _
    rfl
  · apply List.map_congr_left
    intro m _
    have hlast : accounts.length - 1 < accounts.length := by omega
    have hgl := h1getD (accounts.length - 1) hlast
    have hg0 := h1getD 0 hK
    rw [if_pos (by omega)] at hgl
    rw [if_pos (by omega)] at hg0
    rw [h1len, hgl, hg0]
    simp [eoaRemTx, addNonce]

theorem addNonce_addNonce (a : senderAccount) (p q : Nat) :
    addNonce (addNonce a p) q = addNonce a (p + q) := by
  cases a
  simp only [addNonce, senderAccount.mk.injEq, true_and, and_true]
  omega

/-- `ConstructTransactions` emits exactly `numTx` transactions. -/
theorem ConstructTransactions_length (accounts : List senderAccount)
    (numTx chainID : Nat) (P G V : Int) (hne : accounts ≠ []) :
    (EOARuntime.ConstructTransactions accounts numTx chainID P G V).1.length
      = numTx := by
  rw [ConstructTransactions_txs accounts numTx chainID P G V hne]
  simp only [List.length_append, List.length_flatMap, List.length_map,
    List.length_range]
  have h1 : ((List.range accounts.length).map
      (fun _ => numTx / accounts.length)).sum
      = accounts.length * (numTx / accounts.length) := by
    simp [List.map_const']
  rw [show (List.length ∘ fun s : Nat => List.map
      (eoaBlockTx accounts chainID P G V s)
      (List.range (numTx / accounts.length)))
      = (fun _ : Nat => numTx / accounts.length) by
    funext x
    simp [Function.comp]]
  rw [h1]
  exact Nat.div_add_mod numTx accounts.length

/-- Final account states of `ConstructTransactions`: every account's nonce
advances by `numTx / K`, and the last account's by the remainder as well. -/
theorem ConstructTransactions_accounts (accounts : List senderAccount)
    (numTx chainID : Nat) (P G V : Int) (hne : accounts ≠ []) :
    ∀ c, c < accounts.length →
      (EOARuntime.ConstructTransactions accounts numTx chainID P G V).2.getD c default
        = addNonce (accounts.getD c default)
            (numTx / accounts.length
              + if c = accounts.length - 1 then numTx % accounts.length else 0) := by
  intro c hc
  have hK : 0 < accounts.length := List.length_pos.mpr hne
  obtain ⟨h1txs, h1len, h1getD⟩ := constructOuter_spec chainID P G V
    accounts.length (numTx / accounts.length) accounts.length 0 accounts []
    (by omega) rfl
  have hr1ne : (constructOuter chainID P G V accounts.length
      (numTx / accounts.length) accounts [] 0).1 ≠ [] := by
    intro he
    apply hne
    apply List.length_eq_zero.mp
    have h0 := congrArg List.length he
    rw [h1len] at h0
    simpa using h0
  have h2 := constructRemainder_spec chainID P G V (numTx % accounts.length)
    (numTx % accounts.length) 0 (constructOuter chainID P G V accounts.length
      (numTx / accounts.length) accounts [] 0).1
    (constructOuter chainID P G V accounts.length
      (numTx / accounts.length) accounts [] 0).2 (by omega) hr1ne
  simp only [EOARuntime.ConstructTransactions]
  rw [h2]
  simp only [Nat.sub_zero, h1len]
  have hlast : accounts.length - 1 < accounts.length := by omega
  have hgl := h1getD (accounts.length - 1) hlast
  rw [if_pos (by omega)] at hgl
  by_cases hcl : c = accounts.length - 1
  · subst hcl
    rw [getD_set_self _ _ _ _ (by rw [h1len]; omega), hgl, if_pos rfl]
    exact addNonce_addNonce (accounts.getD (accounts.length - 1) default) _ _
  · rw [getD_set_ne _ _ _ _ _ (by omega), h1getD c hc, if_pos (by omega),
      if_neg hcl, Nat.add_zero]

/-- Concrete input for claim C4: two ready accounts (addresses 100 and 200,
starting nonces 5 and 7) and two transactions. -/
def eoaAccountsC4 : List senderAccount := [⟨1, 5, 100⟩, ⟨2, 7, 200⟩]

/-- Claim C4 counterexample: with K = 2 ready accounts and N = 2
transactions, the claim says transaction 0 goes from `accounts[0]` to
`accounts[(0+1) mod 2] = accounts[1]` (address 200); the code instead emits
a self-transfer - its receiver is address 100, the sender's own address. -/
theorem constructTransactions_roundrobin_counterexample :
    ((EOARuntime.ConstructTransactions eoaAccountsC4 2 1 3 21000 4).1.getD 0
        default).toAddr = 100
    ∧ ¬ ((EOARuntime.ConstructTransactions eoaAccountsC4 2 1 3 21000 4).1.getD 0
        default).toAddr
        = (eoaAccountsC4.getD ((0 + 1) % eoaAccountsC4.length) default).address := by
  rw [ConstructTransactions_txs eoaAccountsC4 2 1 3 21000 4 (by simp [eoaAccountsC4])]
  constructor
  · decide
  · decide

/-- Claim C4 (amended): `ConstructTransactions` does not assign senders
round-robin by transaction index.  With K accounts it emits, in order, a
block of `q = ⌊N / K⌋` transactions per account - account `s` sending its
`j`-th transaction to `accounts[(s + j) mod K]` (a self-transfer at
`j = 0`) with nonce `startNonce(s) + j` - followed by `N mod K` remainder
transactions from the last account to `accounts[0]`; every transaction
carries value V, gas price P, gas limit G and the sender's current nonce,
which is incremented after each transaction, so account `c` ends with its
nonce advanced by `q` (plus the remainder for the last account). -/
theorem constructTransactions_block_assignment (accounts : List senderAccount)
    (numTx chainID : Nat) (P G V : Int) (hne : accounts ≠ []) :
    (EOARuntime.ConstructTransactions accounts numTx chainID P G V).1
        = (List.range accounts.length).flatMap
            (fun s => (List.range (numTx / accounts.length)).map
              (eoaBlockTx accounts chainID P G V s))
          ++ (List.range (numTx % accounts.length)).map
              (eoaRemTx accounts chainID P G V (numTx / accounts.length))
    ∧ (EOARuntime.ConstructTransactions accounts numTx chainID P G V).1.length
        = numTx
    ∧ ∀ c, c < accounts.length →
        (EOARuntime.ConstructTransactions accounts numTx chainID P G V).2.getD c
            default
          = addNonce (accounts.getD c default)
              (numTx / accounts.length
                + if c = accounts.length - 1 then numTx % accounts.length else 0) :=
  ⟨ConstructTransactions_txs accounts numTx chainID P G V hne,
   ConstructTransactions_length accounts numTx chainID P G V hne,
   ConstructTransactions_accounts accounts numTx chainID P G V hne⟩

/-- Witness for C4 (amended) at the concrete input of the counterexample. -/
theorem constructTransactions_block_assignment_witness :
    (eoaAccountsC4 ≠ [])
    ∧ (EOARuntime.ConstructTransactions eoaAccountsC4 2 1 3 21000 4).1.length = 2 :=
  ⟨by simp [eoaAccountsC4],
   (constructTransactions_block_assignment eoaAccountsC4 2 1 3 21000 4
     (by simp [eoaAccountsC4])).2.1⟩

/-! ### The statistics collector

Translated from `src/stats/collector.ts`.  `waitForTxPoolToEmpty` is
modelled by its timeout arithmetic and its emptiness test on the
`txpool_status` response values; the receipt-gathering loop of
`gatherTransactionReceipts` is modelled with its `try/catch` translated to
an error branch that appends to `fetchErrors` and continues, and the
JS `Map`s as insertion-ordered association lists.
-/

/-- A JSON-RPC scalar as JavaScript sees it: a number or a string. -/
inductive JsValue where
  | num (n : Int)
  | str (s : String)
deriving Repr, DecidableEq

/-- JavaScript strict equality `===` between such scalars: no coercion, so
a string is never strictly equal to a number. -/
def jsStrictEq : JsValue → JsValue → Bool
  | .num a, .num b => a == b
  | .str a, .str b => a == b
  | _, _ => false

/-- `const timeout = numOfTxs * 500` (milliseconds). -/
def waitForTxPoolTimeoutMs (numOfTxs : Nat) : Nat := numOfTxs * 500

/-- `setTimeout(resolve, 2 * 1000)` between polls. -/
def txpoolPollIntervalMs : Nat := 2 * 1000

/-- The loop-exit test `pending === 0 && queued === 0` on the
`txpool_status` result fields. -/
def txpoolDrained (pending queued : JsValue) : Bool :=
  jsStrictEq pending (.num 0) && jsStrictEq queued (.num 0)

/-- `class txStats` of collector.ts: a transaction hash and its including
block (0 = unincluded). -/
structure txStats where
  txHash : String
  block : Nat
deriving Repr, DecidableEq, Inhabited

/-- The fields of an `eth_getTransactionReceipt` / `waitForTransaction`
result that the collector reads. -/
structure Receipt where
  status : Option Nat
  blockNumber : Nat
deriving Repr, DecidableEq

/-- The fields of a `getBlock` result that the collector reads.  `gasUsed`
and `gasLimit` are `BigNumber`s in the source (serialized as hex strings in
`BlockInfo`); the hex encoding is abstracted away. -/
structure RpcBlock where
  number : Nat
  timestamp : Int
  transactions : List String
  gasUsed : Int
  gasLimit : Int
deriving Repr, DecidableEq

/-- `class BlockInfo` of collector.ts.  `gasUtilizationBps` is the
`BigNumber` fixed-point value `gasUsed * 10000 / gasLimit`; the source
divides it by 100 (a float with two decimals) only for display. -/
structure BlockInfo where
  blockNum : Nat
  createdAt : Int
  numTxs : Nat
  gasUsed : Int
  gasLimit : Int
  gasUtilizationBps : Int
deriving Repr, DecidableEq

/-- The `BlockInfo` constructor applied to a fetched block. -/
def mkBlockInfo (b : RpcBlock) : BlockInfo :=
  ⟨b.number, b.timestamp, b.transactions.length, b.gasUsed, b.gasLimit,
   b.gasUsed * 10000 / b.gasLimit⟩

/-- JS `Map.set`: overwrite an existing key in place, otherwise append in
insertion order. -/
def jsMapSet [DecidableEq κ] [BEq κ] (m : List (κ × β)) (k : κ) (v : β) :
    List (κ × β) :=
  if (m.lookup k).isSome then
    m.map (fun p => if p.1 = k then (k, v) else p)
  else m ++ [(k, v)]

/-- `for (const tx of block.transactions) txToBlockMap.set(tx, block.number)`. -/
def jsMapSetAll (m : List (String × Nat)) (keys : List String) (v : Nat) :
    List (String × Nat) :=
  keys.foldl (fun acc h => jsMapSet acc h v) m

/-- The mutable state of `gatherTransactionReceipts`: the `stats` output
array, the `blocksMap` and `txToBlockMap` caches and the `fetchErrors`
list. -/
structure GatherState where
  stats : List txStats
  blocksMap : List (Nat × BlockInfo)
  txToBlockMap : List (String × Nat)
  fetchErrors : List String
deriving Repr, DecidableEq

/-- One iteration of the `for (const txHash of txHashes)` loop of
`gatherTransactionReceipts`, `try` body and `catch` handler together: a
cached hash is recorded directly; otherwise `waitForTransaction` is
awaited (an oracle `none` is a rejection, e.g. a timeout); a receipt with
`status == 0` throws, and the `catch` appends the error to `fetchErrors`
and the loop continues; otherwise the transaction is recorded and the
fetched block cached.  Mutations made before a throw persist, as they do
in the source. -/
def gatherStep (wtx : String → Option Receipt) (gblock : Nat → Option RpcBlock)
    (st : GatherState) (txHash : String) : GatherState :=
  match st.txToBlockMap.lookup txHash with
  | some b => { st with stats := st.stats ++ [(⟨txHash, b⟩ : txStats)] }
  | none =>
    match wtx txHash with
    | none => { st with fetchErrors := st.fetchErrors ++ ["timeout"] }
    | some receipt =>
      if receipt.status ≠ none ∧ receipt.status = some 0 then
        { st with fetchErrors := st.fetchErrors
            ++ ["transaction " ++ txHash ++ " failed during execution"] }
      else
        let st1 := { st with stats := st.stats ++ [(⟨txHash, receipt.blockNumber⟩ : txStats)] }
        match gblock receipt.blockNumber with
        | none => { st1 with fetchErrors := st1.fetchErrors ++ ["block fetch failed"] }
        | some b =>
          { st1 with
            blocksMap := jsMapSet st1.blocksMap b.number (mkBlockInfo b)
            txToBlockMap := jsMapSetAll st1.txToBlockMap b.transactions b.number }

/-- The full `for` loop over the submitted hashes. -/
def gatherLoop (wtx : String → Option Receipt) (gblock : Nat → Option RpcBlock) :
    List String → GatherState → GatherState
  | [], st => st
  | h :: rest, st => gatherLoop wtx gblock rest (gatherStep wtx gblock st h)

/-- `StatCollector.gatherTransactionReceipts` after the mempool-drain gate:
runs the receipt loop from the empty state. -/
def StatCollector.gatherTransactionReceipts (wtx : String → Option Receipt)
    (gblock : Nat → Option RpcBlock) (txHashes : List String) : GatherState :=
  gatherLoop wtx gblock txHashes ⟨[], [], [], []⟩

/-- Concrete oracles for the C6 counterexample: hash "h1" has a receipt
with `status = 0` in block 3; hash "h2" succeeded in block 4. -/
def wtxC6 : String → Option Receipt :=
  fun h => if h = "h1" then some ⟨some 0, 3⟩ else some ⟨some 1, 4⟩

def gblockC6 : Nat → Option RpcBlock :=
  fun n => if n = 4 then some ⟨4, 1000, ["h2"], 8, 10⟩ else none

/-- Claim C6 counterexample: at a concrete input with a `status = 0`
receipt for the first hash, receipt gathering does not abort - the
execution-failure error is appended to the `fetchErrors` list and the
remaining hash is still processed into `stats` - refuting the claim that
the error propagates out of receipt gathering instead of being tallied. -/
theorem gatherReceipts_status_zero_tallied_counterexample :
    (StatCollector.gatherTransactionReceipts wtxC6 gblockC6 ["h1", "h2"]).fetchErrors
        = ["transaction h1 failed during execution"]
    ∧ (StatCollector.gatherTransactionReceipts wtxC6 gblockC6 ["h1", "h2"]).stats
        = [⟨"h2", 4⟩] :=
  ⟨rfl, rfl⟩

/-- Claim C6 (amended): when `gatherTransactionReceipts` encounters a
receipt whose status is 0, the thrown execution-failure error is caught
inside the loop: it is appended to `fetchErrors`, the transaction is not
added to `stats`, and gathering continues with the remaining hashes
exactly as if only the error had been recorded. -/
theorem gatherReceipts_status_zero_caught (wtx : String → Option Receipt)
    (gblock : Nat → Option RpcBlock) (h : String) (rest : List String)
    (st : GatherState) (r : Receipt)
    (hc : st.txToBlockMap.lookup h = none) (hw : wtx h = some r)
    (h0 : r.status = some 0) :
    gatherLoop wtx gblock (h :: rest) st
      = gatherLoop wtx gblock rest
          { st with fetchErrors := st.fetchErrors
              ++ ["transaction " ++ h ++ " failed during execution"] }
    ∧ (gatherStep wtx gblock st h).stats = st.stats := by
  have hstep : gatherStep wtx gblock st h
      = { st with fetchErrors := st.fetchErrors
          ++ ["transaction " ++ h ++ " failed during execution"] } := by
    unfold gatherStep
    rw [hc, hw]
    dsimp only
    rw [if_pos (show r.status ≠ none ∧ r.status = some 0 from
      ⟨by rw [h0]; simp, h0⟩)]
  constructor
  · show gatherLoop wtx gblock rest (gatherStep wtx gblock st h) = _
    rw [hstep]
  · rw [hstep]

/-- Witness for C6 (amended) at the counterexample's input. -/
theorem gatherReceipts_status_zero_caught_witness :
    ((⟨[], [], [], []⟩ : GatherState).txToBlockMap.lookup "h1" = none
      ∧ wtxC6 "h1" = some ⟨some 0, 3⟩
      ∧ (⟨some 0, 3⟩ : Receipt).status = some 0)
    ∧ (gatherStep wtxC6 gblockC6 ⟨[], [], [], []⟩ "h1").stats = [] := by
  refine ⟨⟨rfl, rfl, rfl⟩, ?_⟩
  exact (gatherReceipts_status_zero_caught wtxC6 gblockC6 "h1" [] ⟨[], [], [], []⟩
    ⟨some 0, 3⟩ rfl rfl rfl).2

/-- Claim C7 counterexample: the mempool-drain phase's timeout for 4
submitted transactions is 2000 ms, not `max(5 s, 4 × 500 ms) = 5000 ms`,
and the hex string "0x0" does not satisfy the strict `=== 0` emptiness
test - refuting the claimed 5-second floor and "0x0" acceptance. -/
theorem waitForTxPool_spec_counterexample :
    ¬ (waitForTxPoolTimeoutMs 4 = max 5000 (4 * 500)
      ∧ txpoolDrained (.str "0x0") (.str "0x0") = true) := by
  decide

/-- Claim C7 (amended): the collector polls `txpool_status` every 2
seconds, the overall timeout is exactly `submitted_count × 500 ms` with no
5-second floor, and the drain test accepts only the strict number 0 for
both `pending` and `queued` - the string "0x0" is not accepted. -/
theorem waitForTxPool_timeout_and_zero_check :
    (∀ n, waitForTxPoolTimeoutMs n = n * 500)
    ∧ txpoolPollIntervalMs = 2000
    ∧ ∀ p q, txpoolDrained p q = true ↔ p = .num 0 ∧ q = .num 0 := by
  refine ⟨fun n => rfl, rfl, ?_⟩
  intro p q
  constructor
  · intro h
    cases p <;> cases q <;> simp [txpoolDrained, jsStrictEq] at h ⊢ <;> omega
  · rintro ⟨rfl, rfl⟩
    rfl

/-- A JavaScript number as `calcTPS` can produce it: NaN (`0/0`),
Infinity (`n/0` for positive `n`), or a natural value (totals here are
far below 2^53, so `Math.ceil` of the float quotient is the exact
ceiling). -/
inductive JsNumber where
  | nan
  | inf
  | fin (n : Nat)
deriving Repr, DecidableEq

/-- `Math.ceil(a / b)` on naturals under JS semantics, division by zero
included. -/
def jsCeilDiv (a b : Nat) : JsNumber :=
  if b = 0 then (if a = 0 then .nan else .inf) else .fin ((a + b - 1) / b)

/-- The first loop of `calcTPS`: count the transactions with a non-zero
block and collect the unique blocks (a JS `Set` iterates in insertion
order, modelled by append-if-absent). -/
def calcTotals (stats : List txStats) : Nat × List Nat :=
  stats.foldl (fun acc s =>
    if s.block = 0 then acc
    else (acc.1 + 1, if s.block ∈ acc.2 then acc.2 else acc.2 ++ [s.block]))
    (0, [])

/-- One iteration of the second loop of `calcTPS` (the `try` body with its
`catch`): resolve the parent and current timestamps through the
`blockTimeMap` cache, fetching and caching on a miss; a fetch that throws
(`none`) skips the block but keeps any cache writes already made; on
success the contribution is `Math.round(Math.abs(current - parent))`,
which for integer timestamps is the absolute difference. -/
def tpsStep (ts : Nat → Option Int) (cache : List (Nat × Int)) (b : Nat) :
    List (Nat × Int) × Nat :=
  match cache.lookup (b - 1) with
  | some tp =>
    (match cache.lookup b with
     | some tc => (cache, (tc - tp).natAbs)
     | none =>
       match ts b with
       | none => (cache, 0)
       | some tc => (cache ++ [(b, tc)], (tc - tp).natAbs))
  | none =>
    match ts (b - 1) with
    | none => (cache, 0)
    | some tp =>
      (match (cache ++ [(b - 1, tp)]).lookup b with
       | some tc => (cache ++ [(b - 1, tp)], (tc - tp).natAbs)
       | none =>
         match ts b with
         | none => (cache ++ [(b - 1, tp)], 0)
         | some tc => (cache ++ [(b - 1, tp)] ++ [(b, tc)], (tc - tp).natAbs))

/-- The second loop of `calcTPS`, accumulating `totalTime`. -/
def tpsLoop (ts : Nat → Option Int) :
    List Nat → List (Nat × Int) → Nat → Nat
  | [], _, total => total
  | b :: rest, cache, total =>
    tpsLoop ts rest (tpsStep ts cache b).1 (total + (tpsStep ts cache b).2)

/-- `totalTxs` as `calcTPS` computes it. -/
def totalIncludedTx (stats : List txStats) : Nat := (calcTotals stats).1

/-- `totalTime` as `calcTPS` computes it, given the timestamp oracle. -/
def totalBlockTime (stats : List txStats) (ts : Nat → Option Int) : Nat :=
  tpsLoop ts (calcTotals stats).2 [] 0

/-- `StatCollector.calcTPS`: `Math.ceil(totalTxs / totalTime)`. -/
def StatCollector.calcTPS (stats : List txStats) (ts : Nat → Option Int) :
    JsNumber :=
  jsCeilDiv (totalIncludedTx stats) (totalBlockTime stats ts)

/-- A single transaction included in block 5, whose timestamp equals its
parent's: the observed block time is 0. -/
def statsC8 : List txStats := [⟨"h", 5⟩]

/-- Claim C8 counterexample: with one included transaction and a zero
total block time, `calcTPS` returns `1/0 = Infinity` (and with no included
transactions it returns `0/0 = NaN`) - not the claimed 0. -/
theorem calcTPS_zero_time_counterexample :
    StatCollector.calcTPS statsC8 (fun _ => some 1000) = .inf
    ∧ StatCollector.calcTPS [] (fun _ => some 1000) = .nan
    ∧ JsNumber.inf ≠ .fin 0 ∧ JsNumber.nan ≠ .fin 0 :=
  ⟨rfl, rfl, by decide, by decide⟩

theorem calcTotals_fst :
    ∀ (stats : List txStats) (acc : Nat × List Nat),
      (stats.foldl (fun acc s =>
        if s.block = 0 then acc
        else (acc.1 + 1, if s.block ∈ acc.2 then acc.2 else acc.2 ++ [s.block]))
        acc).1
      = acc.1 + (stats.filter (fun s => s.block != 0)).length := by
  intro stats
  induction stats with
  | nil => intro acc; simp
  | cons s rest ih =>
    intro acc
    rw [List.foldl_cons, List.filter_cons]
    by_cases hb : s.block = 0
    · rw [if_pos hb]
      have : (s.block != 0) = false := by simp [hb]
      rw [this, if_neg Bool.false_ne_true]
      exact ih acc
    · rw [if_neg hb]
      have : (s.block != 0) = true := by simp [hb]
      rw [this, if_pos rfl]
      rw [ih]
      simp
      omega

theorem lookup_mem {κ β : Type} [BEq κ] [LawfulBEq κ] :
    ∀ (l : List (κ × β)) (k : κ) (v : β), l.lookup k = some v → (k, v) ∈ l := by
  intro l
  induction l with
  | nil => intro k v h; simp [List.lookup] at h
  | cons p t ih =>
    intro k v h
    obtain ⟨k2, v2⟩ := p
    rw [List.lookup] at h
    by_cases hk : (k == k2) = true
    · rw [hk] at h
      simp at h hk
      simp [hk, h]
    · rw [Bool.not_eq_true] at hk
      rw [hk] at h
      exact List.mem_cons_of_mem _ (ih k v h)

theorem tpsLoop_total_oracle (f : Nat → Int) :
    ∀ (blocks : List Nat) (cache : List (Nat × Int)) (total : Nat),
      (∀ p ∈ cache, p.2 = f p.1) →
      tpsLoop (fun b => some (f b)) blocks cache total
        = total + (blocks.map (fun b => (f b - f (b - 1)).natAbs)).sum := by
  intro blocks
  induction blocks with
  | nil => intro cache total _; simp [tpsLoop]
  | cons b rest ih =>
    intro cache total hinv
    rw [tpsLoop]
    have hstep : (tpsStep (fun b => some (f b)) cache b).2
          = (f b - f (b - 1)).natAbs
        ∧ ∀ p ∈ (tpsStep (fun b => some (f b)) cache b).1, p.2 = f p.1 := by
      unfold tpsStep
      cases hp : cache.lookup (b - 1) with
      | some tp =>
        dsimp only
        have htp : tp = f (b - 1) := hinv _ (lookup_mem cache (b - 1) tp hp)
        cases hcb : cache.lookup b with
        | some tc =>
          dsimp only
          have htc : tc = f b := hinv _ (lookup_mem cache b tc hcb)
          exact ⟨by rw [htp, htc], hinv⟩
        | none =>
          dsimp only
          refine ⟨by rw [htp], ?_⟩
          intro p hp2
          rcases List.mem_append.mp hp2 with h | h
          · exact hinv _ h
          · simp at h
            rw [h]
      | none =>
        dsimp only
        have hinv1 : ∀ p ∈ cache ++ [(b - 1, f (b - 1))], p.2 = f p.1 := by
          intro p hp2
          rcases List.mem_append.mp hp2 with h | h
          · exact hinv _ h
          · simp at h
            rw [h]
        cases hq : (cache ++ [(b - 1, f (b - 1))]).lookup b with
        | some tc =>
          dsimp only
          have htc : tc = f b := hinv1 _ (lookup_mem _ b tc hq)
          exact ⟨by rw [htc], hinv1⟩
        | none =>
          dsimp only
          refine ⟨rfl, ?_⟩
          intro p hp2
          rcases List.mem_append.mp hp2 with h | h
          · exact hinv1 _ h
          · simp at h
            rw [h]
    rw [ih _ _ hstep.2, hstep.1]
    simp
    omega

/-- Claim C8 (amended): `calcTPS` returns
`⌈totalIncludedTx / totalBlockTime⌉` (a natural number, hence ≥ 0)
whenever the total block time is positive; when the total block time is 0
it returns NaN or Infinity, never 0.  `totalIncludedTx` counts the stats
entries with a non-zero block, and with a never-throwing timestamp oracle
`totalBlockTime` is the sum of the absolute parent-to-block timestamp
differences over the unique non-zero blocks. -/
theorem calcTPS_characterization (stats : List txStats) (ts : Nat → Option Int) :
    (0 < totalBlockTime stats ts →
      StatCollector.calcTPS stats ts
        = .fin ((totalIncludedTx stats + totalBlockTime stats ts - 1)
            / totalBlockTime stats ts))
    ∧ (totalBlockTime stats ts = 0 →
        StatCollector.calcTPS stats ts
          = if totalIncludedTx stats = 0 then .nan else .inf)
    ∧ totalIncludedTx stats = (stats.filter (fun s => s.block != 0)).length
    ∧ ∀ f : Nat → Int,
        totalBlockTime stats (fun b => some (f b))
          = ((calcTotals stats).2.map (fun b => (f b - f (b - 1)).natAbs)).sum := by
  refine ⟨?_, ?_, ?_, ?_⟩
  · intro hpos
    unfold StatCollector.calcTPS jsCeilDiv
    rw [if_neg (by omega)]
  · intro hzero
    unfold StatCollector.calcTPS jsCeilDiv
    rw [if_pos hzero]
  · unfold totalIncludedTx calcTotals
    simpa using calcTotals_fst stats (0, [])
  · intro f
    unfold totalBlockTime
    rw [tpsLoop_total_oracle f (calcTotals stats).2 [] 0 (by simp)]
    simp

/-- Witness for C8 (amended): one transaction in block 3 with timestamps
growing by one second per block gives a total block time of 1 and an
average TPS of ⌈1/1⌉ = 1. -/
theorem calcTPS_characterization_witness :
    StatCollector.calcTPS [⟨"a", 3⟩] (fun b => some (b : Int)) = .fin 1 := by
  have h := (calcTPS_characterization [⟨"a", 3⟩] (fun b => some (b : Int))).1
    (by decide)
  exact h.trans (by decide)

/-! ### The outputter

Translated from `src/outputter/outputter.ts`.  `CollectorData` (from
collector.ts) carries only `tps` and `blockInfo`; `outputData`
nevertheless reads `data.minTps` and `data.maxTps`, properties that do not
exist on `CollectorData`, so those reads yield `undefined` and
`JSON.stringify` drops the corresponding `outputFormat` fields.
-/

/-- A JSON value as produced by `JSON.stringify` (objects keep field
order). -/
inductive Json where
  | num (n : Int)
  | str (s : String)
  | arr (xs : List Json)
  | obj (fields : List (String × Json))

/-- A JavaScript value position that may hold `undefined`. -/
inductive JsVal where
  | undefined
  | val (j : Json)

/-- `class CollectorData` of collector.ts: only `tps` and `blockInfo`. -/
structure CollectorData where
  tps : Int
  blockInfo : List BlockInfo

/-- The property access `data.minTps`: `CollectorData` declares no such
field, so the read yields `undefined`. -/
def CollectorData.minTps (_ : CollectorData) : JsVal := .undefined

/-- The property access `data.maxTps`: likewise `undefined`. -/
def CollectorData.maxTps (_ : CollectorData) : JsVal := .undefined

/-- Serialization of one `BlockInfo` entry of the `blocks` array. -/
def blockInfoJson (b : BlockInfo) : Json :=
  .obj [("blockNum", .num b.blockNum), ("createdAt", .num b.createdAt),
        ("numTxs", .num b.numTxs), ("gasUsed", .num b.gasUsed),
        ("gasLimit", .num b.gasLimit), ("gasUtilization", .num b.gasUtilizationBps)]

/-- The `outputFormat` object literal, fields in declaration order. -/
def outputFormat (averageTPS minTPS maxTPS blocks : JsVal) :
    List (String × JsVal) :=
  [("averageTPS", averageTPS), ("minTPS", minTPS), ("maxTPS", maxTPS),
   ("blocks", blocks)]

/-- `JSON.stringify` on an object: properties whose value is `undefined`
are omitted from the serialized object. -/
def jsonStringifyObj (fields : List (String × JsVal)) : List (String × Json) :=
  fields.filterMap (fun p => match p.2 with
    | .undefined => none
    | .val j => some (p.1, j))

/-- `Outputter.outputData`: collect the `blockInfo` values into `blocks`
and serialize `new outputFormat(data.tps, data.minTps, data.maxTps,
blocks)`.  The result is the serialized object (the file write itself is
outside the model). -/
def Outputter.outputData (data : CollectorData) : List (String × Json) :=
  jsonStringifyObj (outputFormat (.val (.num data.tps))
    (CollectorData.minTps data) (CollectorData.maxTps data)
    (.val (.arr (data.blockInfo.map blockInfoJson))))

/-- A concrete collector result for claim C9. -/
def blockC9 : BlockInfo := ⟨1, 1000, 2, 21000, 30000, 7000⟩

/-- Claim C9 (refuted by the code, which contradicts its own
`outputFormat` declaration of numeric `minTPS` and `maxTPS` fields): at a
concrete collector result the persisted JSON object contains only
`averageTPS` and `blocks` - `minTPS` and `maxTPS` are dropped because
`CollectorData` has no `minTps`/`maxTps` properties, so `undefined` is
passed and `JSON.stringify` omits the fields. -/
theorem outputData_missing_min_max_tps :
    (Outputter.outputData ⟨7, [blockC9]⟩).map Prod.fst = ["averageTPS", "blocks"]
    ∧ ¬ "minTPS" ∈ (Outputter.outputData ⟨7, [blockC9]⟩).map Prod.fst
    ∧ ¬ "maxTPS" ∈ (Outputter.outputData ⟨7, [blockC9]⟩).map Prod.fst := by
  refine ⟨rfl, by decide, by decide⟩

/-! ### The transaction signer

Translated from `src/runtime/signer.ts` (`Signer.signTransactions`) and
the ethers `Wallet.signTransaction` contract it calls: signing checks a
populated `tx.from` against the wallet's own address and rejects on
mismatch ("transaction from address mismatch"); a signed transaction is
modelled as the signing wallet's address paired with the payload.
-/

def walletSignTransaction (walletAddress : Nat) (tx : TransactionRequest) :
    Except String (Nat × TransactionRequest) :=
  if tx.fromAddr ≠ walletAddress then .error "transaction from address mismatch"
  else .ok (walletAddress, tx)

/-- The `for (let i = 0; i < transactions.length; i++)` loop of
`signTransactions`: the signer for transaction `i` is
`accounts[i % accounts.length]`; a signing failure is pushed to the error
list and skipped. -/
def signLoop (accounts : List senderAccount)
    (transactions : List TransactionRequest) (i : Nat)
    (signedTxs : List (Nat × TransactionRequest)) (errs : List String) :
    List (Nat × TransactionRequest) × List String :=
  if i < transactions.length then
    match walletSignTransaction
        ((accounts.getD (i % accounts.length) default).address)
        (transactions.getD i default) with
    | .ok s => signLoop accounts transactions (i + 1) (signedTxs ++ [s]) errs
    | .error e => signLoop accounts transactions (i + 1) signedTxs (errs ++ [e])
  else (signedTxs, errs)
termination_by transactions.length - i

/-- `Signer.signTransactions(accounts, transactions)`. -/
def Signer.signTransactions (accounts : List senderAccount)
    (transactions : List TransactionRequest) :
    List (Nat × TransactionRequest) × List String :=
  signLoop accounts transactions 0 [] []

/-- Closed form of the signing loop: from index `i` on, the signed list
receives, in order, the transactions whose `from` matches the wallet
chosen round-robin by index, and the error list one mismatch error per
remaining transaction. -/
theorem signLoop_spec (accounts : List senderAccount)
    (transactions : List TransactionRequest) :
    ∀ n i signed errs, transactions.length - i = n →
      signLoop accounts transactions i signed errs
        = (signed ++ (List.range' i (transactions.length - i)).filterMap (fun k =>
            if (transactions.getD k default).fromAddr
                = (accounts.getD (k % accounts.length) default).address
            then some ((accounts.getD (k % accounts.length) default).address,
                  transactions.getD k default)
            else none),
           errs ++ (List.range' i (transactions.length - i)).filterMap (fun k =>
            if (transactions.getD k default).fromAddr
                = (accounts.getD (k % accounts.length) default).address
            then none
            else some "transaction from address mismatch")) := by
  intro n
  induction n with
  | zero =>
    intro i signed errs hn
    rw [signLoop, if_neg (by omega)]
    simp [hn]
  | succ n ih =>
    intro i signed errs hn
    have hi : i < transactions.length := by omega
    rw [signLoop, if_pos hi]
    unfold walletSignTransaction
    rw [show transactions.length - i = n + 1 from hn, List.range'_succ,
      List.filterMap_cons, List.filterMap_cons]
    by_cases hmatch : (transactions.getD i default).fromAddr
        = (accounts.getD (i % accounts.length) default).address
    · rw [if_neg (not_not_intro hmatch), if_pos hmatch, if_pos hmatch]
      dsimp only
      rw [ih (i + 1) _ _ (by omega)]
      rw [show transactions.length - (i + 1) = n by omega]
      simp
    · rw [if_pos hmatch, if_neg hmatch, if_neg hmatch]
      dsimp only
      rw [ih (i + 1) _ _ (by omega)]
      rw [show transactions.length - (i + 1) = n by omega]
      simp

theorem length_filterMap_eq_iff {γ β : Type} (f : γ → Option β) :
    ∀ l : List γ, ((l.filterMap f).length = l.length) ↔ ∀ a ∈ l, (f a).isSome := by
  intro l
  induction l with
  | nil => simp
  | cons a t ih =>
    rw [List.filterMap_cons]
    cases h : f a with
    | none =>
      have hle := List.length_filterMap_le f t
      simp only [List.length_cons]
      constructor
      · intro he
        omega
      · intro hall
        have := hall a (by simp)
        rw [h] at this
        simp at this
    | some b =>
      simp only [List.length_cons]
      constructor
      · intro he
        intro x hx
        rcases List.mem_cons.mp hx with rfl | hxm
        · rw [h]
          rfl
        · refine (ih.mp ?_) x hxm
          simpa using he
      · intro hall
        have ht : (t.filterMap f).length = t.length :=
          ih.mpr (fun x hx => hall x (List.mem_cons_of_mem _ hx))
        simp [ht]

/-- Claim C10: `Signer.signTransactions` attempts to sign transaction `i`
with the wallet of `accounts[i mod |accounts|]` regardless of the
transaction's own `from` field - the signed output keeps exactly the
transactions whose `from` happens to match that wallet - so every
transaction is signed (and signed by its stated sender's key) precisely
when construction assigned senders round-robin by transaction index. -/
theorem signTransactions_round_robin (accounts : List senderAccount)
    (transactions : List TransactionRequest) (hne : accounts ≠ []) :
    (Signer.signTransactions accounts transactions).1
        = (List.range transactions.length).filterMap (fun k =>
            if (transactions.getD k default).fromAddr
                = (accounts.getD (k % accounts.length) default).address
            then some ((accounts.getD (k % accounts.length) default).address,
                  transactions.getD k default)
            else none)
    ∧ ((Signer.signTransactions accounts transactions).1.length
          = transactions.length
        ↔ ∀ i, i < transactions.length →
            (transactions.getD i default).fromAddr
              = (accounts.getD (i % accounts.length) default).address)
    ∧ ∀ s ∈ (Signer.signTransactions accounts transactions).1,
        s.1 = s.2.fromAddr := by
  have h1 : (Signer.signTransactions accounts transactions).1
      = (List.range transactions.length).filterMap (fun k =>
          if (transactions.getD k default).fromAddr
              = (accounts.getD (k % accounts.length) default).address
          then some ((accounts.getD (k % accounts.length) default).address,
                transactions.getD k default)
          else none) := by
    unfold Signer.signTransactions
    rw [signLoop_spec accounts transactions transactions.length 0 [] [] (by omega)]
    simp [List.range_eq_range']
  refine ⟨h1, ?_, ?_⟩
  · rw [h1]
    have hiff := length_filterMap_eq_iff (fun k =>
        if (transactions.getD k default).fromAddr
            = (accounts.getD (k % accounts.length) default).address
        then some ((accounts.getD (k % accounts.length) default).address,
              transactions.getD k default)
        else none) (List.range transactions.length)
    rw [List.length_range] at hiff
    rw [hiff]
    constructor
    · intro hall i hi
      have := hall i (List.mem_range.mpr hi)
      by_contra hcon
      rw [if_neg hcon] at this
      simp at this
    · intro hall i hi
      rw [if_pos (hall i (List.mem_range.mp hi))]
      rfl
  · intro s hs
    rw [h1] at hs
    obtain ⟨k, _, hf⟩ := List.mem_filterMap.mp hs
    by_cases hc : (transactions.getD k default).fromAddr
        = (accounts.getD (k % accounts.length) default).address
    · rw [if_pos hc] at hf
      obtain rfl := Option.some.inj hf
      exact hc.symm
    · rw [if_neg hc] at hf
      simp at hf

/-- Concrete input for the C10 witness: one account (address 100,
nonce 0) and one transaction whose `from` is that address. -/
def accountsC10 : List senderAccount := [⟨1, 0, 100⟩]

def txC10 : TransactionRequest := ⟨100, 1, 200, 3, 21000, 4, 0⟩

/-- Witness for C10 at a concrete input. -/
theorem signTransactions_round_robin_witness :
    (accountsC10 ≠ [])
    ∧ ((Signer.signTransactions accountsC10 [txC10]).1.length = 1
        ↔ ∀ i, i < ([txC10] : List TransactionRequest).length →
            (([txC10] : List TransactionRequest).getD i default).fromAddr
              = ((accountsC10.getD (i % accountsC10.length) default)).address) :=
  ⟨by simp [accountsC10],
   (signTransactions_round_robin accountsC10 [txC10] (by simp [accountsC10])).2.1⟩
